import Mathlib

/-!
Recurrence date engine of the task scheduler.

A shallow embedding of `internal/utils/utils.go` (`NextDate`, `countMonthDay`) together
with the parts of Go's `time`, `strings` and `strconv` packages that these functions use.

* Go strings are lists of characters.
* A `time.Time` that sits at midnight is a calendar day number (day 0 is 0001-01-01 of the
  proleptic Gregorian calendar) plus a flag telling whether its location is `time.Local`
  or UTC.  The process-wide `time.Local` is a parameter of every function that reads it.
* Loops that the source writes as `for cond { ... }` or `for { ... }` take a fuel argument;
  `none` means that the fuel ran out before the loop was left.
-/

namespace GoSched

/-! ## Strings -/

/-- Go `string`. -/
abbrev Str := List Char

/-- Function `strings.Split(s, sep)` for a separator of one byte. -/
def Split (sep : Char) : Str → List Str
  | [] => [[]]
  | c :: cs =>
    if c = sep then [] :: Split sep cs
    else
      match Split sep cs with
      | [] => [[c]]
      | t :: ts => (c :: t) :: ts

/-- Function `strings.Join(toks, sep)` for a separator of one byte; rule texts are written
with it. -/
def Join (sep : Char) : List Str → Str
  | [] => []
  | [t] => t
  | t :: u :: ts => t ++ sep :: Join sep (u :: ts)

/-- Error values returned by the embedded functions (one per message of the source). -/
inductive Err where
  | badRepeat      -- "неверный формат repeat"
  | daysOver400    -- "неверный формат days (d>400)"
  | atoiSyntax     -- strconv.ErrSyntax
  | atoiRange      -- strconv.ErrRange
  | badMonth       -- "неверный формат month"
  | badNow         -- "неверный формат now"
  | badDate        -- "неверный формат date"
  | badWeekdays    -- "неверный формат weekdays"
  | badMonths      -- "неверный формат months"
  | badMonthDays   -- "неверный формат monthDays"
  | pastResult     -- "полученная дата меньше текущей даты"
  | parseError     -- the error value of time.Parse, handed on unchanged
  | dateInPast     -- "date is less than today's date"
  | missingTitle   -- "не указано название задачи"
  | badID          -- "can not parse ID"
  | badDateFormat  -- "неверный формат даты"
  | storage        -- an error of the database
  deriving DecidableEq, Repr

/-- Value of a run of decimal digits, `none` when a byte is not a digit. -/
def digitsVal : Str → Nat → Option Nat
  | [], acc => some acc
  | c :: cs, acc => if c.isDigit then digitsVal cs (10 * acc + (c.toNat - 48)) else none

/-- The digits of `strconv.Atoi` after the optional sign has been taken off: the value,
clamped to the 64-bit range, and the error. -/
def atoiDigits (neg : Bool) (body : Str) : Int × Option Err :=
  if body = [] then (0, some Err.atoiSyntax)
  else
    match digitsVal body 0 with
    | none => (0, some Err.atoiSyntax)
    | some v =>
      let x : Int := if neg then -(v : Int) else (v : Int)
      if x < -9223372036854775808 then (-9223372036854775808, some Err.atoiRange)
      else if 9223372036854775807 < x then (9223372036854775807, some Err.atoiRange)
      else (x, none)

/-- Function `strconv.Atoi` on a 64-bit platform: the returned integer and the error. -/
def Atoi (s : Str) : Int × Option Err :=
  match s with
  | '-' :: r => atoiDigits true r
  | '+' :: r => atoiDigits false r
  | r => atoiDigits false r

/-! ## Calendar arithmetic of package `time` -/

/-- Gregorian leap-year rule. -/
def isLeap (y : Int) : Bool := y % 4 == 0 && (y % 100 != 0 || y % 400 == 0)

/-- Number of days from 0001-01-01 to 1 January of year `y`. -/
def daysBeforeYear (y : Int) : Int :=
  365 * (y - 1) + (y - 1) / 4 - (y - 1) / 100 + (y - 1) / 400

/-- Days of a non-leap year before the first of month `m` (`m` in 1..12; 13 gives 365). -/
def cumDays (m : Int) : Int :=
  if m ≤ 1 then 0 else if m = 2 then 31 else if m = 3 then 59 else if m = 4 then 90
  else if m = 5 then 120 else if m = 6 then 151 else if m = 7 then 181
  else if m = 8 then 212 else if m = 9 then 243 else if m = 10 then 273
  else if m = 11 then 304 else if m = 12 then 334 else 365

/-- Days of year `y` before the first of month `m`. -/
def daysBefore (y m : Int) : Int :=
  cumDays m + (if isLeap y && decide (2 < m) then 1 else 0)

/-- Length of month `m` of year `y`. -/
def daysIn (m y : Int) : Int := daysBefore y (m + 1) - daysBefore y m

/-- Day number of `time.Date(y, m, d, ...)`; month and day may lie outside their usual
ranges and are normalised as Go does (month overflow moves the year, day overflow moves
the date). -/
def dateToDays (y m d : Int) : Int :=
  let y1 := y + (m - 1) / 12
  let m1 := (m - 1) % 12 + 1
  daysBeforeYear y1 + daysBefore y1 m1 + d - 1

/-- A calendar date. -/
structure Civil where
  year : Int
  month : Int
  day : Int
  deriving DecidableEq, Repr

/-- Year in which day number `n` falls. -/
def yearOf (n : Int) : Int :=
  let y0 := (400 * n) / 146097 + 1
  if daysBeforeYear (y0 + 1) ≤ n then y0 + 1 else y0

/-- Month (1..12) in which the zero-based day-of-year `yd` falls. -/
def monthOfYday (leap : Bool) (yd : Int) : Int :=
  let l : Int := if leap then 1 else 0
  if yd < 31 then 1 else if yd < 59 + l then 2 else if yd < 90 + l then 3
  else if yd < 120 + l then 4 else if yd < 151 + l then 5 else if yd < 181 + l then 6
  else if yd < 212 + l then 7 else if yd < 243 + l then 8 else if yd < 273 + l then 9
  else if yd < 304 + l then 10 else if yd < 334 + l then 11 else 12

/-- The date (`t.Date()`) of day number `n`. -/
def civil (n : Int) : Civil :=
  let y := yearOf n
  let yd := n - daysBeforeYear y
  let m := monthOfYday (isLeap y) yd
  { year := y, month := m, day := yd - daysBefore y m + 1 }

/-- The location `time.Local` of the process: the offset (seconds east of UTC) in force at
local midnight of each calendar day.  Offsets of real zones are far below one day. -/
structure Zone where
  offset : Int → Int
  bounded : ∀ d, -86400 < offset d ∧ offset d < 86400

/-- A zone with one fixed offset. -/
def Zone.fixed (s : Int) (h : -86400 < s ∧ s < 86400) : Zone := ⟨fun _ => s, fun _ => h⟩

/-- The zone whose offset is zero (a process running with `TZ=UTC`). -/
def Zone.utc : Zone := Zone.fixed 0 (by decide)

/-- A `time.Time` at midnight of calendar day `day`, in UTC or in `time.Local`. -/
structure Time where
  day : Int
  isLocal : Bool
  deriving DecidableEq, Repr

/-- Seconds of the instant, counted from 0001-01-01T00:00:00Z. -/
def Time.unix (Local : Zone) (t : Time) : Int :=
  t.day * 86400 - (if t.isLocal then Local.offset t.day else 0)

/-- Method `t.Before(u)`. -/
def Time.Before (Local : Zone) (t u : Time) : Bool := decide (t.unix Local < u.unix Local)

/-- Method `t.Equal(u)`. -/
def Time.Equal (Local : Zone) (t u : Time) : Bool := decide (t.unix Local = u.unix Local)

/-- Method `t.Year()`. -/
def Time.Year (t : Time) : Int := (civil t.day).year

/-- Method `t.Month()`. -/
def Time.Month (t : Time) : Int := (civil t.day).month

/-- Method `t.Day()`. -/
def Time.Day (t : Time) : Int := (civil t.day).day

/-- Method `t.Weekday()`, Sunday = 0 ... Saturday = 6 (day 0 is a Monday). -/
def Time.Weekday (t : Time) : Int := (t.day + 1) % 7

/-- Weekday in the numbering of the weekly rules: 1 = Monday ... 7 = Sunday. -/
def Time.ruleWeekday (t : Time) : Int := if t.Weekday = 0 then 7 else t.Weekday

/-- Function `time.Date(y, m, d, 0, 0, 0, 0, time.UTC)`. -/
def DateUTC (y m d : Int) : Time := ⟨dateToDays y m d, false⟩

/-- Function `time.Date(y, m, d, 0, 0, 0, 0, time.Local)`. -/
def DateLocal (y m d : Int) : Time := ⟨dateToDays y m d, true⟩

/-- Method `t.AddDate(years, months, days)`: the fields of `t.Date()` are shifted and
handed to `time.Date` in the location of `t`. -/
def Time.AddDate (t : Time) (years months days : Int) : Time :=
  let c := civil t.day
  ⟨dateToDays (c.year + years) (c.month + months) (c.day + days), t.isLocal⟩

/-- Decimal digit `k` as a byte. -/
def dch (k : Nat) : Char := Char.ofNat (48 + k % 10)

/-- A non-negative number in at least four digits, zero padded. -/
def pad4 (n : Nat) : Str :=
  if n < 10000 then [dch (n / 1000), dch (n / 100), dch (n / 10), dch n]
  else Nat.toDigits 10 n

/-- Two-digit field of a month or day. -/
def pad2 (n : Nat) : Str := [dch (n / 10), dch n]

/-- Method `t.Format("20060102")`. -/
def Time.Format (t : Time) : Str :=
  let c := civil t.day
  (if c.year < 0 then '-' :: pad4 (-c.year).toNat else pad4 c.year.toNat)
    ++ pad2 c.month.toNat ++ pad2 c.day.toNat

/-- Value of one digit byte. -/
def digitOf (c : Char) : Option Int :=
  if c.isDigit then some ((c.toNat : Int) - 48) else none

/-- Function `time.Parse("20060102", s)`: exactly eight digits, month in 1..12, day within
the month; the result is in UTC. -/
def Parse (s : Str) : Option Time :=
  match s with
  | [a, b, c, d, e, f, g, h] =>
    match digitOf a, digitOf b, digitOf c, digitOf d, digitOf e, digitOf f, digitOf g,
      digitOf h with
    | some a, some b, some c, some d, some e, some f, some g, some h =>
      let y := 1000 * a + 100 * b + 10 * c + d
      let m := 10 * e + f
      let dd := 10 * g + h
      if m ≤ 0 ∨ 12 < m then none
      else if dd < 1 ∨ daysIn m y < dd then none
      else some (DateUTC y m dd)
    | _, _, _, _, _, _, _, _ => none
  | _ => none

/-! ## `internal/utils/utils.go` -/

/-- What a call does when it comes back: a returned string, a returned error, or a
run-time panic (index out of range). -/
inductive Res where
  | ok (s : Str)
  | err (e : Err)
  | panic
  deriving DecidableEq, Repr

/-- Loop `for cond(r) { r = step(r) }`. -/
def loopWhile (cond : Time → Bool) (step : Time → Time) : Nat → Time → Option Time
  | 0, r => if cond r then none else some r
  | fuel + 1, r => if cond r then loopWhile cond step fuel (step r) else some r

/-- Loop `for { r = step(r); if cond(r) { return r } }`. -/
def stepUntil (cond : Time → Bool) (step : Time → Time) : Nat → Time → Option Time
  | 0, _ => none
  | fuel + 1, r => if cond (step r) then some (step r) else stepUntil cond step fuel (step r)

/-- Lines 90-103 of `NextDate`: the day tokens, converted one after the other. -/
def parseDays : List Str → Except Err (List Int)
  | [] => .ok []
  | day :: rest =>
    if 400 < (Atoi day).1 then .error Err.daysOver400
    else
      match (Atoi day).2 with
      | some e => .error e
      | none =>
        match parseDays rest with
        | .ok ds => .ok ((Atoi day).1 :: ds)
        | .error e => .error e

/-- Lines 104-116 of `NextDate`: the month tokens. -/
def parseMonths : List Str → Except Err (List Int)
  | [] => .ok []
  | month :: rest =>
    if 12 < (Atoi month).1 ∨ (Atoi month).1 < 1 then .error Err.badMonth
    else
      match (Atoi month).2 with
      | some e => .error e
      | none =>
        match parseMonths rest with
        | .ok ms => .ok ((Atoi month).1 :: ms)
        | .error e => .error e

/-- The twelve keys written by `for i := 1; i <= 12; i++ { wantedMonths[i] = true }`. -/
def allMonths : List Int := [1, 2, 3, 4, 5, 6, 7, 8, 9, 10, 11, 12]

/-- Lines 319-401 of `countMonthDay`, entered when the month map is empty: either the
function returns a day at once (`Sum.inl`), or it goes on with a month map and a
`desiredMonth` (`Sum.inr`). -/
def countMonthDayEmpty (dateStart : Time) (subDays : Int) (isFeb : Bool) (daysInMonth : Int)
    (currentMonth : Int) : Sum Int (List Int × Int) :=
  let next : Int := if currentMonth = 12 then 1 else currentMonth + 1
  if isFeb then
    if dateStart.Day ≤ 27 ∧ daysInMonth = 29 then
      (if subDays = -1 then Sum.inl daysInMonth else Sum.inl (daysInMonth - 1))
    else if dateStart.Day ≤ 27 ∧ daysInMonth = 28 then
      (if subDays = -1 then Sum.inl daysInMonth else Sum.inl 30)
    else if daysInMonth = 29 ∧ dateStart.Day = 29 then
      (if subDays = -1 then Sum.inl 31 else Sum.inl 30)
    else if daysInMonth = 29 ∧ dateStart.Day = 28 then
      (if subDays = -1 then Sum.inl 29 else Sum.inl 30)
    else if daysInMonth = 28 ∧ dateStart.Day = 28 then
      (if subDays = -1 then Sum.inl 31 else Sum.inl 30)
    else if daysInMonth = 28 ∧ dateStart.Day = 27 then
      (if subDays = -1 then Sum.inl 28 else Sum.inl 30)
    else Sum.inr ([], 0)
  else if dateStart.Day < 29 then Sum.inr ([currentMonth], currentMonth)
  else if dateStart.Day = 30 ∧ (dateStart.AddDate 0 0 1).Day = 31 then
    (if subDays = -1 then Sum.inr ([currentMonth], currentMonth) else Sum.inr ([next], next))
  else if dateStart.Day = 30 ∧ (dateStart.AddDate 0 0 1).Day = 1 then Sum.inr ([next], next)
  else if dateStart.Day = 31 then Sum.inr ([next], next)
  else if dateStart.Day = 29 ∧ (dateStart.AddDate 0 0 2).Day = 31 then
    Sum.inr ([currentMonth], currentMonth)
  else if dateStart.Day = 29 ∧ (dateStart.AddDate 0 0 2).Day = 1 then
    (if subDays = -1 then Sum.inr ([currentMonth], currentMonth) else Sum.inr ([next], next))
  else Sum.inr ([], 0)

/-- Lines 402-415 of `countMonthDay`: the two closing loops. -/
def countMonthDayTail (fuel : Nat) (newMap : List Int) (desiredMonth : Int) (dateStart : Time)
    (subDays : Int) : Option Int :=
  if dateStart.Month = desiredMonth then
    match loopWhile (fun r => decide (r.Month ∈ newMap)) (fun r => r.AddDate 0 0 1) fuel
        dateStart with
    | none => none
    | some r => some (r.AddDate 0 0 subDays).Day
  else
    match stepUntil (fun r => decide (r.Month ∈ newMap)) (fun r => r.AddDate 0 0 1) fuel
        dateStart with
    | none => none
    | some r => some (r.AddDate 0 1 subDays).Day

/-- Function `countMonthDay`.  A `map[int]bool` whose entries are only ever set to `true`
is the list of its keys. -/
def countMonthDay (fuel : Nat) (wantedMonths : List Int) (now dateStart : Time)
    (subDays : Int) (isDateStartBeforeNow : Bool) : Option Int :=
  let newMap := wantedMonths
  let dateStart := if isDateStartBeforeNow then now else dateStart
  let currentMonth := dateStart.Month
  let isFeb : Bool := decide (currentMonth = 2)
  let daysInMonth : Int :=
    if isFeb && decide (dateStart.Year % 4 = 0) then
      (if dateStart.Year % 100 = 0 then (if dateStart.Year % 400 = 0 then 29 else 28) else 29)
    else if isFeb then 28
    else 0
  if newMap = [] then
    match countMonthDayEmpty dateStart subDays isFeb daysInMonth currentMonth with
    | Sum.inl day => some day
    | Sum.inr (m, desiredMonth) => countMonthDayTail fuel m desiredMonth dateStart subDays
  else countMonthDayTail fuel newMap 0 dateStart subDays

/-- Lines 171-180 of `NextDate`: the wanted weekdays (7 is stored as 0, Sunday). -/
def weekdaySet : List Int → Except Err (List Int)
  | [] => .ok []
  | day :: rest =>
    if day < 1 ∨ 7 < day then .error Err.badWeekdays
    else
      match weekdaySet rest with
      | .ok ws => .ok ((if day = 7 then 0 else day) :: ws)
      | .error e => .error e

/-- Lines 198-203 of `NextDate`: the wanted months. -/
def monthSet : List Int → Except Err (List Int)
  | [] => .ok []
  | month :: rest =>
    if month < 1 ∨ 12 < month then .error Err.badMonths
    else
      match monthSet rest with
      | .ok ms => .ok (month :: ms)
      | .error e => .error e

/-- Lines 204-215 of `NextDate`: the wanted days of the month; a value that is not
positive goes through `countMonthDay`. -/
def monthDaySet (Local : Zone) (fuel : Nat) (wantedMonths : List Int) (now dateStart : Time) :
    List Int → Option (Except Err (List Int))
  | [] => some (.ok [])
  | day :: rest =>
    if 31 < day ∨ day < -2 then some (.error Err.badMonthDays)
    else
      match (if 0 < day then some day
             else countMonthDay fuel wantedMonths now dateStart day
               (dateStart.Before Local now)) with
      | none => none
      | some d =>
        match monthDaySet Local fuel wantedMonths now dateStart rest with
        | none => none
        | some (.error e) => some (.error e)
        | some (.ok ds) => some (.ok (d :: ds))

/-- Lines 219-226 of `NextDate`: months inferred from today when no month was given and
the start date is not after today. -/
def monthsFromNow (Local : Zone) (now : Time) (wantedMonthDays : List Int) : List Int :=
  let wm := wantedMonthDays.foldl
    (fun acc day =>
      if (DateLocal now.Year now.Month day).Before Local now then (now.Month + 1) :: acc
      else acc) []
  if wm = [] then [now.Month] else wm

/-- Body of the loop at lines 230-254 of `NextDate` for one wanted day; `none` is the
panic of `daysInt[0]` on an empty slice. -/
def monthsFromStartStep (Local : Zone) (dateStart : Time) (daysInt : List Int)
    (wantedMonths : List Int) (day : Int) : Option (List Int) :=
  let tempDate0 := DateLocal dateStart.Year dateStart.Month day
  let skip : Bool := decide (dateStart.Month < tempDate0.Month)
  let tempDate1 := if skip then tempDate0.AddDate 0 0 (-1) else tempDate0
  let tempDate :=
    if skip && decide (tempDate1.Month = 3) && decide (dateStart.Month = 2)
    then tempDate1.AddDate 0 0 (-1) else tempDate1
  if tempDate.Before Local dateStart then
    match daysInt with
    | [] => none
    | d0 :: _ =>
      if d0 = -1 ∨ d0 = -2 then some (allMonths ++ dateStart.Month :: wantedMonths)
      else some (dateStart.Month :: wantedMonths)
  else if dateStart.Day < tempDate.Day then
    (if skip then some ((dateStart.Month + 1) :: wantedMonths)
     else some (dateStart.Month :: wantedMonths))
  else some wantedMonths

/-- Loop at lines 230-254 of `NextDate`. -/
def monthsFromStartLoop (Local : Zone) (dateStart : Time) (daysInt : List Int) :
    List Int → List Int → Option (List Int)
  | [], wantedMonths => some wantedMonths
  | day :: rest, wantedMonths =>
    match monthsFromStartStep Local dateStart daysInt wantedMonths day with
    | none => none
    | some wm => monthsFromStartLoop Local dateStart daysInt rest wm

/-- Lines 229-263 of `NextDate`: months inferred from the start date when no month was
given and the start date is after today. -/
def monthsFromStart (Local : Zone) (dateStart : Time) (daysInt wantedMonthDays : List Int) :
    Option (List Int) :=
  match monthsFromStartLoop Local dateStart daysInt wantedMonthDays [] with
  | none => none
  | some wm =>
    if wm = [] then
      match daysInt with
      | [] => none
      | d0 :: _ =>
        if d0 = -1 ∨ d0 = -2 then some (allMonths ++ [dateStart.Month])
        else some [dateStart.Month]
    else some wm

/-- Case `"d"` of `NextDate` (lines 136-160).  `today` is
`time.Date(now.Year(), now.Month(), now.Day(), 0, 0, 0, 0, time.Local)`. -/
def nextDaily (Local : Zone) (fuel : Nat) (now dateStart : Time) (daysInt : List Int) :
    Option Res :=
  match daysInt with
  | [] => some Res.panic
  | n :: _ =>
    let today := DateLocal now.Year now.Month now.Day
    let loop := loopWhile (fun r => r.Before Local today) (fun r => r.AddDate 0 0 n) fuel
    if n = 1 then
      if dateStart = now then some (Res.ok dateStart.Format)
      else (loop (dateStart.AddDate 0 0 1)).map (fun r => Res.ok r.Format)
    else if dateStart.Equal Local now then some (Res.ok (dateStart.AddDate 0 0 n).Format)
    else
      (loop (if now.Before Local dateStart then dateStart.AddDate 0 0 n else dateStart)).map
        (fun r => Res.ok r.Format)

/-- Case `"y"` of `NextDate` (lines 161-166). -/
def nextYearly (Local : Zone) (fuel : Nat) (now dateStart : Time) : Option Res :=
  (loopWhile (fun r => r.Before Local now) (fun r => r.AddDate 1 0 0) fuel
    (dateStart.AddDate 1 0 0)).map (fun r => Res.ok r.Format)

/-- Case `"w"` of `NextDate` (lines 167-194). -/
def nextWeekly (Local : Zone) (fuel : Nat) (now dateStart : Time) (daysInt : List Int) :
    Option Res :=
  match weekdaySet daysInt with
  | .error e => some (Res.err e)
  | .ok wantedWeekdays =>
    let start := if dateStart.Before Local now then now else dateStart
    match stepUntil (fun r => decide (r.Weekday ∈ wantedWeekdays)) (fun r => r.AddDate 0 0 1)
        fuel start with
    | none => none
    | some r => if r.Before Local now then some (Res.err Err.pastResult) else some (Res.ok r.Format)

/-- Case `"m"` of `NextDate` (lines 195-273). -/
def nextMonthly (Local : Zone) (fuel : Nat) (now dateStart : Time) (daysInt monthsInt : List Int) :
    Option Res :=
  match monthSet monthsInt with
  | .error e => some (Res.err e)
  | .ok wantedMonths0 =>
    match monthDaySet Local fuel wantedMonths0 now dateStart daysInt with
    | none => none
    | some (.error e) => some (Res.err e)
    | some (.ok wantedMonthDays) =>
      let wantedMonths1 :=
        if wantedMonths0 = [] ∧ (dateStart.Before Local now ∨ dateStart = now)
        then monthsFromNow Local now wantedMonthDays else wantedMonths0
      match (if wantedMonths1 = [] ∧ now.Before Local dateStart
             then monthsFromStart Local dateStart daysInt wantedMonthDays
             else some wantedMonths1) with
      | none => some Res.panic
      | some wantedMonths =>
        match stepUntil
            (fun r => decide (r.Month ∈ wantedMonths) && decide (r.Day ∈ wantedMonthDays)
              && now.Before Local r)
            (fun r => r.AddDate 0 0 1) fuel dateStart with
        | none => none
        | some r =>
          if r.Before Local now then some (Res.err Err.pastResult) else some (Res.ok r.Format)

/-- Function `NextDate(now, date, repeat)`.  `now` carries the calendar day that the
argument shows in its own location; `fuel` bounds every loop. -/
def NextDate (Local : Zone) (fuel : Nat) (now : Time) (date : Str) (repeatStr : Str) :
    Option Res :=
  let repeatSlc := Split ' ' repeatStr
  let rule := repeatSlc.headD []
  let len := repeatSlc.length
  if 3 < len ∨ (rule = ['y'] ∧ 1 < len) ∨ (rule = ['d'] ∧ len = 1) ∨ (rule = ['d'] ∧ 2 < len)
      ∨ (rule = ['w'] ∧ 2 < len) then some (Res.err Err.badRepeat)
  else
    match (if 1 < len then parseDays (Split ',' (repeatSlc.getD 1 [])) else .ok []) with
    | .error e => some (Res.err e)
    | .ok daysInt =>
      match (if 2 < len then parseMonths (Split ',' (repeatSlc.getD 2 [])) else .ok []) with
      | .error e => some (Res.err e)
      | .ok monthsInt =>
        match Parse now.Format with
        | none => some (Res.err Err.badNow)
        | some now =>
          match Parse date with
          | none => some (Res.err Err.badDate)
          | some dateStart =>
            if rule = [] then
              (if dateStart.Before Local now
               then some (Res.ok (DateUTC now.Year now.Month now.Day).Format)
               else some (Res.ok dateStart.Format))
            else if rule = ['d'] then nextDaily Local fuel now dateStart daysInt
            else if rule = ['y'] then nextYearly Local fuel now dateStart
            else if rule = ['w'] then nextWeekly Local fuel now dateStart daysInt
            else if rule = ['m'] then nextMonthly Local fuel now dateStart daysInt monthsInt
            else some (Res.err Err.badRepeat)

/-! ## `internal/models/models.go` and `internal/models/dbConnection.go` -/

/-- Type `models.Task`. -/
structure Task where
  ID : Str
  Title : Str
  Date : Str
  Repeat : Str
  Comment : Str
  deriving DecidableEq, Repr

/-- The value of `time.Now()`: the calendar day shown in `time.Local` and the seconds gone
since local midnight.  All reads of the clock within one operation see this one value, and
the zone offset in force is the one of local midnight of that day. -/
structure Clock where
  day : Int
  sec : Int
  inDay : 0 ≤ sec ∧ sec < 86400

/-- The clock as a `time.Time` of which only the calendar day is read (`Format`, and the
`now` argument of `NextDate`). -/
def Clock.toTime (c : Clock) : Time := ⟨c.day, true⟩

/-- Seconds of the instant `time.Now()`, counted from 0001-01-01T00:00:00Z. -/
def Clock.unix (Local : Zone) (c : Clock) : Int := c.day * 86400 + c.sec - Local.offset c.day

/-- Method `Task.CompleteRequest`: the returned string and error.  (The assignment to
`t.Date` in the empty-date branch stores the returned string; the only caller overwrites
`t.Date` with the returned string anyway.) -/
def Task.CompleteRequest (Local : Zone) (fuel : Nat) (clock : Clock) (t : Task) : Option Res :=
  let now := clock.toTime.Format
  let timeNow := (Parse now).getD ⟨0, false⟩
  if t.Date = [] then some (Res.ok clock.toTime.Format)
  else
    match Parse t.Date with
    | some date =>
      if date.Before Local timeNow then
        if t.Repeat = [] then some (Res.ok clock.toTime.Format)
        else if date.Equal Local timeNow then some (Res.ok t.Date)
        else
          match NextDate Local fuel clock.toTime t.Date t.Repeat with
          | none => none
          | some (Res.err e) => some (Res.err e)
          | some (Res.ok nextDate) => some (Res.ok nextDate)
          | some Res.panic => some Res.panic
      else if decide (clock.unix Local < date.unix Local) then some (Res.ok t.Date)
      else some (Res.ok t.Date)
    | none => some (Res.ok t.Date)

/-- Method `Task.CheckTask`; `none` is the `nil` error. -/
def Task.CheckTask (t : Task) : Option Err :=
  if t.ID ≠ [] ∧ (Atoi t.ID).2 ≠ none then some Err.badID
  else if t.Title = [] ∨ t.Title = [' '] then some Err.missingTitle
  else if t.Date ≠ [] ∧ Parse t.Date = none then some Err.badDateFormat
  else if t.Repeat ≠ [] then
    let repeatSlc := Split ' ' t.Repeat
    let rule := repeatSlc.headD []
    let len := repeatSlc.length
    if rule = ['y'] ∨ rule = ['d'] ∨ rule = ['w'] ∨ rule = ['m'] then
      if 3 < len ∨ (rule = ['y'] ∧ 1 < len) ∨ (rule = ['d'] ∧ len = 1) ∨
          (rule = ['d'] ∧ 2 < len) ∨ (rule = ['w'] ∧ len ≠ 2) then some Err.badRepeat
      else none
    else some Err.badRepeat
  else none

/-- Method `Task.CheckDate`: the returned string and error. -/
def Task.CheckDate (Local : Zone) (clock : Clock) (t : Task) : Res :=
  match Parse clock.toTime.Format with
  | none => Res.err Err.parseError
  | some now =>
    match Parse t.Date with
    | none => Res.err Err.parseError
    | some tmpDate =>
      let date : Str :=
        if t.Date = clock.toTime.Format ∨ now.Before Local tmpDate = true then t.Date else []
      if tmpDate.unix Local < clock.unix Local ∧ now.Equal Local tmpDate = false then
        Res.err Err.dateInPast
      else Res.ok date

/-- Method `DBConnection.DateToAdd`: on success `Res.ok` carries the date left in
`task.Date`. -/
def DateToAdd (Local : Zone) (fuel : Nat) (clock : Clock) (task : Task) : Option Res :=
  match task.CompleteRequest Local fuel clock with
  | none => none
  | some (Res.err e) => some (Res.err e)
  | some Res.panic => some Res.panic
  | some (Res.ok nextDate) =>
    if nextDate ≠ [] then some (Task.CheckDate Local clock { task with Date := nextDate })
    else some (Res.ok nextDate)

/-- What `DBConnection.Done` does once `GetTask` has answered. -/
inductive DoneResult where
  | updated (task : Task)  -- `c.UpdateDate(task)` was called and `nil` returned
  | deleted (id : Int)     -- `c.Delete(id)` was called and `nil` returned
  | failed (e : Err)       -- the error was returned; neither `UpdateDate` nor `Delete` ran
  | panic                  -- index out of range
  deriving DecidableEq, Repr

/-- Method `DBConnection.Done`, given the answer `got` of `c.GetTask(id)`; `now` is
`time.Now()`, of which only the calendar day is read.  The results of `UpdateDate` and
`Delete` are dropped by the source. -/
def Done (Local : Zone) (fuel : Nat) (now : Time) (got : Except Err Task) : Option DoneResult :=
  match got with
  | .error e => some (DoneResult.failed e)
  | .ok task =>
    if task.Repeat ≠ [] then
      match NextDate Local fuel now task.Date task.Repeat with
      | none => none
      | some Res.panic => some DoneResult.panic
      | some (Res.err e) => some (DoneResult.failed e)
      | some (Res.ok nextDate) =>
        if nextDate = now.Format then
          match Parse nextDate with
          | none => some (DoneResult.failed Err.parseError)
          | some date =>
            match (Split ' ' task.Repeat).drop 1 with
            | [] => some DoneResult.panic
            | tok :: _ =>
              match (Atoi tok).2 with
              | some e => some (DoneResult.failed e)
              | none =>
                some (DoneResult.updated
                  { task with Date := (date.AddDate 0 0 (Atoi tok).1).Format })
        else some (DoneResult.updated { task with Date := nextDate })
    else
      match (Atoi task.ID).2 with
      | some e => some (DoneResult.failed e)
      | none => some (DoneResult.deleted (Atoi task.ID).1)

/-! ## Calendar lemmas -/

theorem isLeap_iff (y : Int) : isLeap y = true ↔ (y % 4 = 0 ∧ (y % 100 ≠ 0 ∨ y % 400 = 0)) := by
  simp [isLeap]

theorem daysBeforeYear_succ (y : Int) :
    daysBeforeYear (y + 1) = daysBeforeYear y + (if isLeap y then 366 else 365) := by
  by_cases h : isLeap y = true
  · rw [if_pos h]
    rw [isLeap_iff] at h
    unfold daysBeforeYear
    omega
  · rw [if_neg h]
    rw [isLeap_iff] at h
    unfold daysBeforeYear
    omega

theorem yearOf_spec (n : Int) :
    daysBeforeYear (yearOf n) ≤ n ∧ n < daysBeforeYear (yearOf n + 1) := by
  unfold yearOf
  simp only
  split
  · rename_i h
    refine ⟨h, ?_⟩
    unfold daysBeforeYear
    omega
  · rename_i h
    refine ⟨?_, by omega⟩
    unfold daysBeforeYear
    omega

theorem daysBeforeYear_mono {a b : Int} (h : a ≤ b) : daysBeforeYear a ≤ daysBeforeYear b := by
  unfold daysBeforeYear
  omega

theorem yearOf_unique (n y : Int) (h1 : daysBeforeYear y ≤ n) (h2 : n < daysBeforeYear (y + 1)) :
    yearOf n = y := by
  have hs := yearOf_spec n
  by_contra hne
  rcases lt_or_gt_of_ne hne with h | h
  · have := daysBeforeYear_mono (show yearOf n + 1 ≤ y by omega)
    omega
  · have := daysBeforeYear_mono (show y + 1 ≤ yearOf n by omega)
    omega

theorem daysBefore_vals (y : Int) :
    ∃ L : Int, L = (if isLeap y then 1 else 0) ∧ (L = 0 ∨ L = 1) ∧
    daysBefore y 1 = 0 ∧ daysBefore y 2 = 31 ∧ daysBefore y 3 = 59 + L ∧
    daysBefore y 4 = 90 + L ∧ daysBefore y 5 = 120 + L ∧ daysBefore y 6 = 151 + L ∧
    daysBefore y 7 = 181 + L ∧ daysBefore y 8 = 212 + L ∧ daysBefore y 9 = 243 + L ∧
    daysBefore y 10 = 273 + L ∧ daysBefore y 11 = 304 + L ∧ daysBefore y 12 = 334 + L ∧
    daysBefore y 13 = 365 + L := by
  refine ⟨_, rfl, ?_⟩
  unfold daysBefore
  cases isLeap y <;> decide

theorem monthOfYday_spec (y yd : Int) (h0 : 0 ≤ yd)
    (h1 : yd < if isLeap y then 366 else 365) :
    1 ≤ monthOfYday (isLeap y) yd ∧ monthOfYday (isLeap y) yd ≤ 12 ∧
      daysBefore y (monthOfYday (isLeap y) yd) ≤ yd ∧
      yd < daysBefore y (monthOfYday (isLeap y) yd + 1) := by
  obtain ⟨L, hL, hL01, v1, v2, v3, v4, v5, v6, v7, v8, v9, v10, v11, v12, v13⟩ :=
    daysBefore_vals y
  have h1' : yd < 365 + L := by
    rw [hL]; split_ifs at h1 ⊢ <;> omega
  clear h1
  generalize hm : monthOfYday (isLeap y) yd = m
  simp only [monthOfYday] at hm
  rw [← hL] at hm
  clear hL
  by_cases c1 : yd < 31
  · rw [if_pos c1] at hm
    subst hm
    simp only [Int.reduceAdd, v1, v2]
    clear v1 v2 v3 v4 v5 v6 v7 v8 v9 v10 v11 v12 v13
    omega
  rw [if_neg c1] at hm
  by_cases c2 : yd < 59 + L
  · rw [if_pos c2] at hm
    subst hm
    simp only [Int.reduceAdd, v2, v3]
    clear v1 v2 v3 v4 v5 v6 v7 v8 v9 v10 v11 v12 v13
    omega
  rw [if_neg c2] at hm
  by_cases c3 : yd < 90 + L
  · rw [if_pos c3] at hm
    subst hm
    simp only [Int.reduceAdd, v3, v4]
    clear v1 v2 v3 v4 v5 v6 v7 v8 v9 v10 v11 v12 v13
    omega
  rw [if_neg c3] at hm
  by_cases c4 : yd < 120 + L
  · rw [if_pos c4] at hm
    subst hm
    simp only [Int.reduceAdd, v4, v5]
    clear v1 v2 v3 v4 v5 v6 v7 v8 v9 v10 v11 v12 v13
    omega
  rw [if_neg c4] at hm
  by_cases c5 : yd < 151 + L
  · rw [if_pos c5] at hm
    subst hm
    simp only [Int.reduceAdd, v5, v6]
    clear v1 v2 v3 v4 v5 v6 v7 v8 v9 v10 v11 v12 v13
    omega
  rw [if_neg c5] at hm
  by_cases c6 : yd < 181 + L
  · rw [if_pos c6] at hm
    subst hm
    simp only [Int.reduceAdd, v6, v7]
    clear v1 v2 v3 v4 v5 v6 v7 v8 v9 v10 v11 v12 v13
    omega
  rw [if_neg c6] at hm
  by_cases c7 : yd < 212 + L
  · rw [if_pos c7] at hm
    subst hm
    simp only [Int.reduceAdd, v7, v8]
    clear v1 v2 v3 v4 v5 v6 v7 v8 v9 v10 v11 v12 v13
    omega
  rw [if_neg c7] at hm
  by_cases c8 : yd < 243 + L
  · rw [if_pos c8] at hm
    subst hm
    simp only [Int.reduceAdd, v8, v9]
    clear v1 v2 v3 v4 v5 v6 v7 v8 v9 v10 v11 v12 v13
    omega
  rw [if_neg c8] at hm
  by_cases c9 : yd < 273 + L
  · rw [if_pos c9] at hm
    subst hm
    simp only [Int.reduceAdd, v9, v10]
    clear v1 v2 v3 v4 v5 v6 v7 v8 v9 v10 v11 v12 v13
    omega
  rw [if_neg c9] at hm
  by_cases c10 : yd < 304 + L
  · rw [if_pos c10] at hm
    subst hm
    simp only [Int.reduceAdd, v10, v11]
    clear v1 v2 v3 v4 v5 v6 v7 v8 v9 v10 v11 v12 v13
    omega
  rw [if_neg c10] at hm
  by_cases c11 : yd < 334 + L
  · rw [if_pos c11] at hm
    subst hm
    simp only [Int.reduceAdd, v11, v12]
    clear v1 v2 v3 v4 v5 v6 v7 v8 v9 v10 v11 v12 v13
    omega
  rw [if_neg c11] at hm
  subst hm
  simp only [Int.reduceAdd, v12, v13]
  clear v1 v2 v3 v4 v5 v6 v7 v8 v9 v10 v11 v12 v13
  omega

theorem monthOfYday_unique (y m yd : Int) (hm1 : 1 ≤ m) (hm2 : m ≤ 12)
    (h1 : daysBefore y m ≤ yd) (h2 : yd < daysBefore y (m + 1)) :
    monthOfYday (isLeap y) yd = m := by
  obtain ⟨L, hL, hL01, v1, v2, v3, v4, v5, v6, v7, v8, v9, v10, v11, v12, v13⟩ :=
    daysBefore_vals y
  have hcases : m = 1 ∨ m = 2 ∨ m = 3 ∨ m = 4 ∨ m = 5 ∨ m = 6 ∨ m = 7 ∨ m = 8 ∨ m = 9 ∨ m = 10
      ∨ m = 11 ∨ m = 12 := by omega
  simp only [monthOfYday]
  rw [← hL]
  clear hL
  rcases hcases with h | h | h | h | h | h | h | h | h | h | h | h <;> subst h
  · simp only [Int.reduceAdd, v1, v2] at h1 h2
    clear v1 v2 v3 v4 v5 v6 v7 v8 v9 v10 v11 v12 v13
    rw [if_pos (show yd < 31 by omega)]
  · simp only [Int.reduceAdd, v2, v3] at h1 h2
    clear v1 v2 v3 v4 v5 v6 v7 v8 v9 v10 v11 v12 v13
    rw [if_neg (show ¬ (yd < 31) by omega), if_pos (show yd < 59 + L by omega)]
  · simp only [Int.reduceAdd, v3, v4] at h1 h2
    clear v1 v2 v3 v4 v5 v6 v7 v8 v9 v10 v11 v12 v13
    rw [if_neg (show ¬ (yd < 31) by omega), if_neg (show ¬ (yd < 59 + L) by omega), if_pos (show yd < 90 + L by omega)]
  · simp only [Int.reduceAdd, v4, v5] at h1 h2
    clear v1 v2 v3 v4 v5 v6 v7 v8 v9 v10 v11 v12 v13
    rw [if_neg (show ¬ (yd < 31) by omega), if_neg (show ¬ (yd < 59 + L) by omega), if_neg (show ¬ (yd < 90 + L) by omega), if_pos (show yd < 120 + L by omega)]
  · simp only [Int.reduceAdd, v5, v6] at h1 h2
    clear v1 v2 v3 v4 v5 v6 v7 v8 v9 v10 v11 v12 v13
    rw [if_neg (show ¬ (yd < 31) by omega), if_neg (show ¬ (yd < 59 + L) by omega), if_neg (show ¬ (yd < 90 + L) by omega), if_neg (show ¬ (yd < 120 + L) by omega), if_pos (show yd < 151 + L by omega)]
  · simp only [Int.reduceAdd, v6, v7] at h1 h2
    clear v1 v2 v3 v4 v5 v6 v7 v8 v9 v10 v11 v12 v13
    rw [if_neg (show ¬ (yd < 31) by omega), if_neg (show ¬ (yd < 59 + L) by omega), if_neg (show ¬ (yd < 90 + L) by omega), if_neg (show ¬ (yd < 120 + L) by omega), if_neg (show ¬ (yd < 151 + L) by omega), if_pos (show yd < 181 + L by omega)]
  · simp only [Int.reduceAdd, v7, v8] at h1 h2
    clear v1 v2 v3 v4 v5 v6 v7 v8 v9 v10 v11 v12 v13
    rw [if_neg (show ¬ (yd < 31) by omega), if_neg (show ¬ (yd < 59 + L) by omega), if_neg (show ¬ (yd < 90 + L) by omega), if_neg (show ¬ (yd < 120 + L) by omega), if_neg (show ¬ (yd < 151 + L) by omega), if_neg (show ¬ (yd < 181 + L) by omega), if_pos (show yd < 212 + L by omega)]
  · simp only [Int.reduceAdd, v8, v9] at h1 h2
    clear v1 v2 v3 v4 v5 v6 v7 v8 v9 v10 v11 v12 v13
    rw [if_neg (show ¬ (yd < 31) by omega), if_neg (show ¬ (yd < 59 + L) by omega), if_neg (show ¬ (yd < 90 + L) by omega), if_neg (show ¬ (yd < 120 + L) by omega), if_neg (show ¬ (yd < 151 + L) by omega), if_neg (show ¬ (yd < 181 + L) by omega), if_neg (show ¬ (yd < 212 + L) by omega), if_pos (show yd < 243 + L by omega)]
  · simp only [Int.reduceAdd, v9, v10] at h1 h2
    clear v1 v2 v3 v4 v5 v6 v7 v8 v9 v10 v11 v12 v13
    rw [if_neg (show ¬ (yd < 31) by omega), if_neg (show ¬ (yd < 59 + L) by omega), if_neg (show ¬ (yd < 90 + L) by omega), if_neg (show ¬ (yd < 120 + L) by omega), if_neg (show ¬ (yd < 151 + L) by omega), if_neg (show ¬ (yd < 181 + L) by omega), if_neg (show ¬ (yd < 212 + L) by omega), if_neg (show ¬ (yd < 243 + L) by omega), if_pos (show yd < 273 + L by omega)]
  · simp only [Int.reduceAdd, v10, v11] at h1 h2
    clear v1 v2 v3 v4 v5 v6 v7 v8 v9 v10 v11 v12 v13
    rw [if_neg (show ¬ (yd < 31) by omega), if_neg (show ¬ (yd < 59 + L) by omega), if_neg (show ¬ (yd < 90 + L) by omega), if_neg (show ¬ (yd < 120 + L) by omega), if_neg (show ¬ (yd < 151 + L) by omega), if_neg (show ¬ (yd < 181 + L) by omega), if_neg (show ¬ (yd < 212 + L) by omega), if_neg (show ¬ (yd < 243 + L) by omega), if_neg (show ¬ (yd < 273 + L) by omega), if_pos (show yd < 304 + L by omega)]
  · simp only [Int.reduceAdd, v11, v12] at h1 h2
    clear v1 v2 v3 v4 v5 v6 v7 v8 v9 v10 v11 v12 v13
    rw [if_neg (show ¬ (yd < 31) by omega), if_neg (show ¬ (yd < 59 + L) by omega), if_neg (show ¬ (yd < 90 + L) by omega), if_neg (show ¬ (yd < 120 + L) by omega), if_neg (show ¬ (yd < 151 + L) by omega), if_neg (show ¬ (yd < 181 + L) by omega), if_neg (show ¬ (yd < 212 + L) by omega), if_neg (show ¬ (yd < 243 + L) by omega), if_neg (show ¬ (yd < 273 + L) by omega), if_neg (show ¬ (yd < 304 + L) by omega), if_pos (show yd < 334 + L by omega)]
  · simp only [Int.reduceAdd, v12, v13] at h1 h2
    clear v1 v2 v3 v4 v5 v6 v7 v8 v9 v10 v11 v12 v13
    rw [if_neg (show ¬ (yd < 31) by omega), if_neg (show ¬ (yd < 59 + L) by omega), if_neg (show ¬ (yd < 90 + L) by omega), if_neg (show ¬ (yd < 120 + L) by omega), if_neg (show ¬ (yd < 151 + L) by omega), if_neg (show ¬ (yd < 181 + L) by omega), if_neg (show ¬ (yd < 212 + L) by omega), if_neg (show ¬ (yd < 243 + L) by omega), if_neg (show ¬ (yd < 273 + L) by omega), if_neg (show ¬ (yd < 304 + L) by omega), if_neg (show ¬ (yd < 334 + L) by omega)]

theorem dateToDays_norm (y m d : Int) (h1 : 1 ≤ m) (h2 : m ≤ 12) :
    dateToDays y m d = daysBeforeYear y + daysBefore y m + d - 1 := by
  have e1 : (m - 1) / 12 = 0 := by omega
  have e2 : (m - 1) % 12 + 1 = m := by omega
  simp only [dateToDays, e1, e2, add_zero]

theorem dateToDays_add_day (y m d k : Int) : dateToDays y m (d + k) = dateToDays y m d + k := by
  simp only [dateToDays]
  ring

theorem yday_bounds (n : Int) :
    0 ≤ n - daysBeforeYear (yearOf n) ∧
      n - daysBeforeYear (yearOf n) < (if isLeap (yearOf n) then 366 else 365) := by
  have h := yearOf_spec n
  rw [daysBeforeYear_succ] at h
  constructor
  · omega
  · split_ifs at h ⊢ <;> omega

/-- The fields of `civil n` form an existing calendar date whose day number is `n`. -/
theorem civil_valid (n : Int) :
    1 ≤ (civil n).month ∧ (civil n).month ≤ 12 ∧ 1 ≤ (civil n).day ∧
      (civil n).day ≤ daysIn (civil n).month (civil n).year ∧
      dateToDays (civil n).year (civil n).month (civil n).day = n := by
  obtain ⟨hb0, hb1⟩ := yday_bounds n
  obtain ⟨m1, m2, m3, m4⟩ := monthOfYday_spec (yearOf n) _ hb0 hb1
  refine ⟨m1, m2, ?_, ?_, ?_⟩
  · simp only [civil]; omega
  · simp only [civil, daysIn]
    generalize daysBefore (yearOf n) (monthOfYday (isLeap (yearOf n)) (n - daysBeforeYear (yearOf n)) + 1) = A at *
    generalize daysBefore (yearOf n) (monthOfYday (isLeap (yearOf n)) (n - daysBeforeYear (yearOf n))) = B at *
    omega
  · have e := dateToDays_norm (civil n).year (civil n).month (civil n).day m1 m2
    rw [e]
    simp only [civil]
    ring

/-- Every existing calendar date is the date of its day number. -/
theorem civil_dateToDays (y m d : Int) (hm1 : 1 ≤ m) (hm2 : m ≤ 12) (hd1 : 1 ≤ d)
    (hd2 : d ≤ daysIn m y) : civil (dateToDays y m d) = ⟨y, m, d⟩ := by
  rw [dateToDays_norm _ _ _ hm1 hm2]
  obtain ⟨L, hL, hL01, v1, v2, v3, v4, v5, v6, v7, v8, v9, v10, v11, v12, v13⟩ :=
    daysBefore_vals y
  have hlo : 0 ≤ daysBefore y m := by
    have hcases : m = 1 ∨ m = 2 ∨ m = 3 ∨ m = 4 ∨ m = 5 ∨ m = 6 ∨ m = 7 ∨ m = 8 ∨ m = 9 ∨ m = 10
      ∨ m = 11 ∨ m = 12 := by omega
    rcases hcases with h | h | h | h | h | h | h | h | h | h | h | h <;> subst h <;>
    simp only [v1, v2, v3, v4, v5, v6, v7, v8, v9, v10, v11, v12] <;>
    clear v1 v2 v3 v4 v5 v6 v7 v8 v9 v10 v11 v12 v13 <;> omega
  have hhi : daysBefore y (m + 1) ≤ 365 + L := by
    have hcases : m = 1 ∨ m = 2 ∨ m = 3 ∨ m = 4 ∨ m = 5 ∨ m = 6 ∨ m = 7 ∨ m = 8 ∨ m = 9 ∨ m = 10
      ∨ m = 11 ∨ m = 12 := by omega
    rcases hcases with h | h | h | h | h | h | h | h | h | h | h | h <;> subst h <;>
    simp only [Int.reduceAdd, v1, v2, v3, v4, v5, v6, v7, v8, v9, v10, v11, v12, v13] <;>
    clear v1 v2 v3 v4 v5 v6 v7 v8 v9 v10 v11 v12 v13 <;> omega
  clear v1 v2 v3 v4 v5 v6 v7 v8 v9 v10 v11 v12 v13
  have hs := daysBeforeYear_succ y
  simp only [daysIn] at hd2
  have hy : yearOf (daysBeforeYear y + daysBefore y m + d - 1) = y := by
    apply yearOf_unique
    · generalize daysBefore y m = B at *
      omega
    · generalize daysBefore y m = B at *
      generalize daysBefore y (m + 1) = A at *
      have : (if isLeap y = true then (366 : Int) else 365) = 365 + L := by
        rw [hL]; split_ifs <;> rfl
      rw [this] at hs
      omega
  have hm : monthOfYday (isLeap y) (daysBeforeYear y + daysBefore y m + d - 1 - daysBeforeYear y)
      = m := by
    apply monthOfYday_unique _ _ _ hm1 hm2
    · generalize daysBefore y m = B at *
      omega
    · generalize daysBefore y m = B at *
      generalize daysBefore y (m + 1) = A at *
      omega
  simp only [civil, hy, hm]
  congr 1
  ring

/-! ## Lemmas on `time.Time` -/

theorem AddDate_days (t : Time) (k : Int) : t.AddDate 0 0 k = ⟨t.day + k, t.isLocal⟩ := by
  obtain ⟨_, _, _, _, h⟩ := civil_valid t.day
  simp only [Time.AddDate, add_zero, dateToDays_add_day, h]

theorem DateLocal_civil (t : Time) : DateLocal t.Year t.Month t.Day = ⟨t.day, true⟩ := by
  obtain ⟨_, _, _, _, h⟩ := civil_valid t.day
  simp only [DateLocal, Time.Year, Time.Month, Time.Day, h]

theorem DateUTC_civil (t : Time) : DateUTC t.Year t.Month t.Day = ⟨t.day, false⟩ := by
  obtain ⟨_, _, _, _, h⟩ := civil_valid t.day
  simp only [DateUTC, Time.Year, Time.Month, Time.Day, h]

theorem Before_utc (Local : Zone) (a b : Int) :
    (Time.Before Local ⟨a, false⟩ ⟨b, false⟩) = decide (a < b) := by
  simp only [Time.Before, Time.unix, Bool.false_eq_true, if_false, sub_zero]
  congr 1
  apply propext
  constructor <;> intro h <;> omega

theorem Equal_utc (Local : Zone) (a b : Int) :
    (Time.Equal Local ⟨a, false⟩ ⟨b, false⟩) = decide (a = b) := by
  simp only [Time.Equal, Time.unix, Bool.false_eq_true, if_false, sub_zero]
  congr 1
  apply propext
  constructor <;> intro h <;> omega

theorem digitOf_ofNat (j : Nat) (h : j < 10) : digitOf (Char.ofNat (48 + j)) = some (j : Int) := by
  interval_cases j <;> rfl

theorem digitOf_dch (k : Nat) : digitOf (dch k) = some ((k % 10 : Nat) : Int) :=
  digitOf_ofNat (k % 10) (Nat.mod_lt _ (by decide))

/-- Parsing the formatted text of a date whose year has four digits gives the date back,
in UTC. -/
theorem Parse_Format (t : Time) (h0 : 0 ≤ t.Year) (h1 : t.Year ≤ 9999) :
    Parse t.Format = some ⟨t.day, false⟩ := by
  obtain ⟨m1, m2, d1, d2, hday⟩ := civil_valid t.day
  have hd31 : (civil t.day).day ≤ 31 := by
    obtain ⟨L, hL, hL01, v1, v2, v3, v4, v5, v6, v7, v8, v9, v10, v11, v12, v13⟩ :=
      daysBefore_vals (civil t.day).year
    have hcases : (civil t.day).month = 1 ∨ (civil t.day).month = 2 ∨ (civil t.day).month = 3 ∨
        (civil t.day).month = 4 ∨ (civil t.day).month = 5 ∨ (civil t.day).month = 6 ∨
        (civil t.day).month = 7 ∨ (civil t.day).month = 8 ∨ (civil t.day).month = 9 ∨
        (civil t.day).month = 10 ∨ (civil t.day).month = 11 ∨ (civil t.day).month = 12 := by omega
    simp only [daysIn] at d2
    rcases hcases with h | h | h | h | h | h | h | h | h | h | h | h <;> rw [h] at d2 <;>
    simp only [Int.reduceAdd, v1, v2, v3, v4, v5, v6, v7, v8, v9, v10, v11, v12, v13] at d2 <;>
    clear v1 v2 v3 v4 v5 v6 v7 v8 v9 v10 v11 v12 v13 <;> omega
  simp only [Time.Year] at h0 h1
  generalize hc : civil t.day = c at *
  obtain ⟨y, m, d⟩ := c
  simp only at m1 m2 d1 d2 hday h0 h1 hd31
  have hy : ¬ y < 0 := by omega
  simp only [Time.Format, hc, hy, if_false, pad4, pad2]
  have hy4 : y.toNat < 10000 := by omega
  simp only [hy4, if_true, List.cons_append, List.nil_append, Parse, digitOf_dch]
  have ey : (1000 * ((y.toNat / 1000 % 10 : Nat) : Int) + 100 * ((y.toNat / 100 % 10 : Nat) : Int)
      + 10 * ((y.toNat / 10 % 10 : Nat) : Int) + ((y.toNat % 10 : Nat) : Int)) = y := by omega
  have em : (10 * ((m.toNat / 10 % 10 : Nat) : Int) + ((m.toNat % 10 : Nat) : Int)) = m := by omega
  have ed : (10 * ((d.toNat / 10 % 10 : Nat) : Int) + ((d.toNat % 10 : Nat) : Int)) = d := by omega
  rw [ey, em, ed]
  have c1 : ¬ (m ≤ 0 ∨ 12 < m) := by omega
  have c2 : ¬ (d < 1 ∨ daysIn m y < d) := by
    generalize daysIn m y = A at *
    omega
  simp only [c1, c2, if_false, DateUTC, hday]

/-- A parsed date is a UTC time whose day, month and year have the usual ranges. -/
theorem Parse_utc (s : Str) (t : Time) (h : Parse s = some t) :
    t.isLocal = false ∧ 0 ≤ t.Year ∧ t.Year ≤ 9999 := by
  unfold Parse at h
  split at h
  · split at h
    · rename_i a b c d e f g k a1 b1 c1 d1 e1 f1 g1 k1 ha hb hc hd he hf hg hk
      simp only at h
      split_ifs at h with q1 q2
      have hdig : ∀ (ch : Char) (v : Int), digitOf ch = some v → 0 ≤ v ∧ v ≤ 9 := by
        intro ch v hv
        unfold digitOf at hv
        split_ifs at hv with hdg
        simp only [Char.isDigit, Bool.and_eq_true, decide_eq_true_eq] at hdg
        have e : v = (ch.toNat : Int) - 48 := by injection hv with hv; exact hv.symm
        have l1 : 48 ≤ ch.toNat := by
          have := hdg.1
          exact this
        have l2 : ch.toNat ≤ 57 := by
          have := hdg.2
          exact this
        omega
      have A := hdig _ _ ha
      have B := hdig _ _ hb
      have C := hdig _ _ hc
      have D := hdig _ _ hd
      have E := hdig _ _ he
      have F := hdig _ _ hf
      have G := hdig _ _ hg
      have K := hdig _ _ hk
      injection h with h
      subst h
      refine ⟨rfl, ?_⟩
      have hcv := civil_dateToDays (1000 * a1 + 100 * b1 + 10 * c1 + d1) (10 * e1 + f1)
        (10 * g1 + k1) (by omega) (by omega) (by omega) (by
          generalize daysIn (10 * e1 + f1) (1000 * a1 + 100 * b1 + 10 * c1 + d1) = A at *
          omega)
      simp only [Time.Year, DateUTC, hcv]
      omega
    · exact absurd h (by simp)
  · exact absurd h (by simp)

/-! ## Lemmas on strings -/

theorem Split_noSep (sep : Char) (s : Str) (h : sep ∉ s) : Split sep s = [s] := by
  induction s with
  | nil => rfl
  | cons c cs ih =>
    have hc : c ≠ sep := fun e => h (by simp [e])
    have hcs : sep ∉ cs := fun e => h (by simp [e])
    simp only [Split, hc, if_false, ih hcs]

theorem Split_append (sep : Char) (s rest : Str) (h : sep ∉ s) :
    Split sep (s ++ sep :: rest) = s :: Split sep rest := by
  induction s with
  | nil => simp only [List.nil_append, Split, if_true]
  | cons c cs ih =>
    have hc : c ≠ sep := fun e => h (by simp [e])
    have hcs : sep ∉ cs := fun e => h (by simp [e])
    have e := ih hcs
    simp only [List.cons_append, Split, hc, if_false]
    rw [show cs.append (sep :: rest) = cs ++ sep :: rest from rfl, e]

theorem digitsVal_isDigit : ∀ (cs : Str) (acc v : Nat), digitsVal cs acc = some v →
    ∀ c ∈ cs, c.isDigit = true
  | [], _, _, _ => by simp
  | c :: cs, acc, v, h => by
    simp only [digitsVal] at h
    split_ifs at h with hd
    intro x hx
    rcases List.mem_cons.mp hx with e | e
    · rw [e]; exact hd
    · exact digitsVal_isDigit cs _ v h x e

theorem atoiDigits_chars (neg : Bool) (body : Str) (h : (atoiDigits neg body).2 = none) :
    ∀ c ∈ body, c.isDigit = true := by
  unfold atoiDigits at h
  by_cases hb : body = []
  · rw [if_pos hb] at h
    simp at h
  · rw [if_neg hb] at h
    cases hv : digitsVal body 0 with
    | none =>
      rw [hv] at h
      simp at h
    | some v => exact digitsVal_isDigit _ _ _ hv

/-- A string accepted by `strconv.Atoi` holds digits and at most a leading sign. -/
theorem Atoi_chars (s : Str) (h : (Atoi s).2 = none) :
    ∀ c ∈ s, c.isDigit = true ∨ c = '-' ∨ c = '+' := by
  unfold Atoi at h
  intro c hc
  split at h
  · rcases List.mem_cons.mp hc with e | e
    · exact Or.inr (Or.inl e)
    · exact Or.inl (atoiDigits_chars _ _ h c e)
  · rcases List.mem_cons.mp hc with e | e
    · exact Or.inr (Or.inr e)
    · exact Or.inl (atoiDigits_chars _ _ h c e)
  · exact Or.inl (atoiDigits_chars _ _ h c hc)

theorem Atoi_noSpace (s : Str) (h : (Atoi s).2 = none) : ' ' ∉ s := by
  intro hc
  rcases Atoi_chars s h _ hc with e | e | e
  · exact absurd e (by decide)
  · exact absurd e (by decide)
  · exact absurd e (by decide)

theorem Atoi_noComma (s : Str) (h : (Atoi s).2 = none) : ',' ∉ s := by
  intro hc
  rcases Atoi_chars s h _ hc with e | e | e
  · exact absurd e (by decide)
  · exact absurd e (by decide)
  · exact absurd e (by decide)

/-! ## The daily rule -/

theorem Before_utc_local (Local : Zone) (x d : Int) :
    Time.Before Local ⟨x, false⟩ ⟨d, true⟩ = decide (x * 86400 < d * 86400 - Local.offset d) := by
  simp only [Time.Before, Time.unix, Bool.false_eq_true, if_false, if_true, sub_zero]

/-- A loop that adds `n ≥ 1` days while the date lies before an instant `lim` stops at the
first date of the progression that is not before `lim`. -/
theorem loopWhile_add (lim n : Int) (hn : 1 ≤ n) (cond : Time → Bool) (step : Time → Time)
    (hcond : ∀ x, cond ⟨x, false⟩ = decide (x * 86400 < lim))
    (hstep : ∀ x, step ⟨x, false⟩ = ⟨x + n, false⟩) :
    ∀ (fuel : Nat) (x : Int), lim ≤ (x + fuel) * 86400 →
      ∃ k : Nat, loopWhile cond step fuel ⟨x, false⟩ = some ⟨x + k * n, false⟩ ∧
        lim ≤ (x + k * n) * 86400 ∧ ∀ j : Nat, j < k → (x + j * n) * 86400 < lim := by
  intro fuel
  induction fuel with
  | zero =>
    intro x hx
    refine ⟨0, ?_, ?_, ?_⟩
    · have hc : cond ⟨x, false⟩ = false := by
        rw [hcond]; simp only [decide_eq_false_iff_not]; push_cast at hx; omega
      simp only [loopWhile, hc, Nat.cast_zero, zero_mul, add_zero]
      rfl
    · push_cast at hx ⊢; omega
    · intro j hj; omega
  | succ f ih =>
    intro x hx
    by_cases hc : x * 86400 < lim
    · have hc1 : cond ⟨x, false⟩ = true := by rw [hcond]; simp only [decide_eq_true_eq]; exact hc
      obtain ⟨k, h1, h2, h3⟩ := ih (x + n) (by push_cast at hx ⊢; omega)
      refine ⟨k + 1, ?_, ?_, ?_⟩
      · simp only [loopWhile, hc1, if_true, hstep, h1]
        congr 2
        push_cast
        ring
      · have e : x + ((k + 1 : Nat) : Int) * n = x + n + k * n := by push_cast; ring
        rw [e]; exact h2
      · intro j hj
        cases j with
        | zero => simpa using hc
        | succ j =>
          have e : x + ((j + 1 : Nat) : Int) * n = x + n + j * n := by push_cast; ring
          rw [e]; exact h3 j (by omega)
    · have hc1 : cond ⟨x, false⟩ = false := by
        rw [hcond]; simp only [decide_eq_false_iff_not]; exact hc
      refine ⟨0, ?_, ?_, ?_⟩
      · simp only [loopWhile, hc1, Nat.cast_zero, zero_mul, add_zero]
        rfl
      · simp only [Nat.cast_zero, zero_mul, add_zero]; omega
      · intro j hj; omega

/-- The front end of `NextDate` on a daily rule: the rule text `d tok`, with `tok` an
integer of at most 400, reaches the daily case with `daysInt = [n]`. -/
theorem NextDate_daily_eq (Local : Zone) (fuel : Nat) (now a : Time) (date tok : Str) (n : Int)
    (hnow : 0 ≤ now.Year ∧ now.Year ≤ 9999) (hdate : Parse date = some a)
    (htok : Atoi tok = (n, none)) (hn : n ≤ 400) :
    NextDate Local fuel now date ('d' :: ' ' :: tok) =
      nextDaily Local fuel ⟨now.day, false⟩ a [n] := by
  have hnone : (Atoi tok).2 = none := by rw [htok]
  have hsp : Split ' ' ('d' :: ' ' :: tok) = [['d'], tok] := by
    have h1 := Split_append ' ' ['d'] tok (by decide)
    rw [Split_noSep ' ' tok (Atoi_noSpace tok hnone)] at h1
    exact h1
  have hcm : Split ',' tok = [tok] := Split_noSep ',' tok (Atoi_noComma tok hnone)
  have hpd : parseDays [tok] = .ok [n] := by
    have : ¬ (400 < n) := by omega
    simp only [parseDays, htok, this, if_false]
  have hcount : ¬ (3 < 2 ∨ ((['d'] : Str) = ['y'] ∧ 1 < 2) ∨ ((['d'] : Str) = ['d'] ∧ 2 = 1) ∨
      ((['d'] : Str) = ['d'] ∧ 2 < 2) ∨ ((['d'] : Str) = ['w'] ∧ 2 < 2)) := by decide
  simp only [NextDate, hsp, List.headD_cons, List.length_cons, List.length_nil, Nat.reduceAdd,
    zero_add, if_neg hcount, Nat.one_lt_ofNat, if_true, List.getD_cons_succ, List.getD_cons_zero,
    hcm, hpd, lt_self_iff_false, if_false, Parse_Format now hnow.1 hnow.2, hdate]
  rfl

/-- The loop of the daily case, started at UTC day `x`: it stops at `x + k * n`, the first
date of the progression whose UTC midnight is not before local midnight of today. -/
theorem daily_loop (Local : Zone) (nowd x n : Int) (hn : 1 ≤ n) :
    ∃ k : Nat,
      nowd * 86400 - Local.offset nowd ≤ (x + k * n) * 86400 ∧
      (∀ j : Nat, j < k → (x + j * n) * 86400 < nowd * 86400 - Local.offset nowd) ∧
      ∀ fuel : Nat, nowd + 1 - x ≤ fuel →
        loopWhile (fun r => r.Before Local ⟨nowd, true⟩) (fun r => r.AddDate 0 0 n) fuel
          ⟨x, false⟩ = some ⟨x + k * n, false⟩ := by
  have hb := Local.bounded nowd
  have key := loopWhile_add (nowd * 86400 - Local.offset nowd) n hn
    (fun r => r.Before Local ⟨nowd, true⟩) (fun r => r.AddDate 0 0 n)
    (fun x => Before_utc_local Local x nowd) (fun x => AddDate_days ⟨x, false⟩ n)
  obtain ⟨k, h1, h2, h3⟩ := key (nowd + 1 - x).toNat x (by omega)
  refine ⟨k, h2, h3, ?_⟩
  intro fuel hf
  obtain ⟨k', h1', h2', h3'⟩ := key fuel x (by omega)
  have e : k' = k := by
    rcases Nat.lt_trichotomy k' k with h | h | h
    · have := h3 k' h
      omega
    · exact h
    · have := h3' k h
      omega
  rw [h1', e]

/-- The daily case written over day numbers. -/
theorem nextDaily_eq (Local : Zone) (fuel : Nat) (nowd ad n : Int) :
    nextDaily Local fuel ⟨nowd, false⟩ ⟨ad, false⟩ [n] =
      if n = 1 then
        if ad = nowd then some (Res.ok (Time.Format ⟨ad, false⟩))
        else (loopWhile (fun r => r.Before Local ⟨nowd, true⟩) (fun r => r.AddDate 0 0 n) fuel
          ⟨ad + 1, false⟩).map (fun r => Res.ok r.Format)
      else if ad = nowd then some (Res.ok (Time.Format ⟨ad + n, false⟩))
      else (loopWhile (fun r => r.Before Local ⟨nowd, true⟩) (fun r => r.AddDate 0 0 n) fuel
          (if nowd < ad then ⟨ad + n, false⟩ else ⟨ad, false⟩)).map (fun r => Res.ok r.Format) := by
  have e1 : ((⟨ad, false⟩ : Time) = ⟨nowd, false⟩) = (ad = nowd) := by
    apply propext
    constructor
    · intro h; injection h
    · intro h; rw [h]
  simp only [nextDaily, DateLocal_civil, AddDate_days, Equal_utc, Before_utc, e1,
    decide_eq_true_eq]

/-- Claim C1.  For every daily rule `d n` with `1 ≤ n ≤ 400` (`tok` is any text that
`strconv.Atoi` reads as `n`), every anchor date that parses and every today with a
four-digit year, `NextDate` returns — for every fuel of at least `today + 1 - anchor`
loop rounds — the text of the date `anchor + k * n` for some `k ≥ 0`, and that date is not
before today. -/
theorem C1_daily_multiple (Local : Zone) (now a : Time) (date tok : Str) (n : Int)
    (hnow : 0 ≤ now.Year ∧ now.Year ≤ 9999) (hdate : Parse date = some a)
    (htok : Atoi tok = (n, none)) (hn : 1 ≤ n ∧ n ≤ 400) :
    ∃ k : Nat, now.day ≤ a.day + k * n ∧
      ∀ fuel : Nat, now.day + 1 - a.day ≤ fuel →
        NextDate Local fuel now date ('d' :: ' ' :: tok) =
          some (Res.ok (Time.Format ⟨a.day + k * n, false⟩)) := by
  obtain ⟨ad, al⟩ := a
  obtain ⟨hal, -, -⟩ := Parse_utc date _ hdate
  simp only at hal
  subst hal
  simp only
  have hb := Local.bounded now.day
  by_cases h1 : n = 1
  · by_cases h2 : ad = now.day
    · refine ⟨0, by omega, ?_⟩
      intro fuel _
      rw [NextDate_daily_eq Local fuel now _ date tok n hnow hdate htok hn.2, nextDaily_eq,
        if_pos h1, if_pos h2]
      simp
    · obtain ⟨k, hk2, -, hk⟩ := daily_loop Local now.day (ad + 1) n hn.1
      refine ⟨k + 1, by subst h1; push_cast at hk2 ⊢; omega, ?_⟩
      intro fuel hf
      rw [NextDate_daily_eq Local fuel now _ date tok n hnow hdate htok hn.2, nextDaily_eq,
        if_pos h1, if_neg h2, hk fuel (by omega)]
      simp only [Option.map_some']
      congr 4
      subst h1
      push_cast
      ring
  · by_cases h2 : ad = now.day
    · refine ⟨1, by push_cast; omega, ?_⟩
      intro fuel _
      rw [NextDate_daily_eq Local fuel now _ date tok n hnow hdate htok hn.2, nextDaily_eq,
        if_neg h1, if_pos h2]
      simp
    · by_cases h3 : now.day < ad
      · obtain ⟨k, hk2, -, hk⟩ := daily_loop Local now.day (ad + n) n hn.1
        refine ⟨k + 1, ?_, ?_⟩
        · have e : ad + ((k + 1 : Nat) : Int) * n = ad + n + k * n := by push_cast; ring
          rw [e]
          generalize (k : Int) * n = z at *
          omega
        · intro fuel hf
          rw [NextDate_daily_eq Local fuel now _ date tok n hnow hdate htok hn.2, nextDaily_eq,
            if_neg h1, if_neg h2, if_pos h3, hk fuel (by omega)]
          simp only [Option.map_some']
          congr 4
          push_cast
          ring
      · obtain ⟨k, hk2, -, hk⟩ := daily_loop Local now.day ad n hn.1
        refine ⟨k, ?_, ?_⟩
        · generalize (k : Int) * n = z at *
          omega
        · intro fuel hf
          rw [NextDate_daily_eq Local fuel now _ date tok n hnow hdate htok hn.2, nextDaily_eq,
            if_neg h1, if_neg h2, if_neg h3, hk fuel (by omega)]
          simp only [Option.map_some']

theorem C1_witness :
    ∃ k : Nat, (738959 : Int) ≤ 738958 + k * 3 ∧
      ∀ fuel : Nat, (738959 : Int) + 1 - 738958 ≤ fuel →
        NextDate Zone.utc fuel ⟨738959, false⟩ "20240314".toList ('d' :: ' ' :: "3".toList) =
          some (Res.ok (Time.Format ⟨738958 + k * 3, false⟩)) :=
  C1_daily_multiple Zone.utc ⟨738959, false⟩ ⟨738958, false⟩ "20240314".toList "3".toList 3
    (by decide) (by decide) (by decide) (by decide)

/-- Claim C2, as amended.  When the anchor date equals today, a daily rule `d n` with
`2 ≤ n ≤ 400` returns `anchor + n` days, and the rule `d 1` returns the anchor itself
(today), whatever the fuel and the zone of `time.Local`. -/
theorem C2_daily_anchor_today (Local : Zone) (fuel : Nat) (now a : Time) (date tok : Str)
    (n : Int) (hnow : 0 ≤ now.Year ∧ now.Year ≤ 9999) (hdate : Parse date = some a)
    (htok : Atoi tok = (n, none)) (hn : 1 ≤ n ∧ n ≤ 400) (heq : a.day = now.day) :
    NextDate Local fuel now date ('d' :: ' ' :: tok) =
      some (Res.ok (Time.Format ⟨if n = 1 then a.day else a.day + n, false⟩)) := by
  obtain ⟨ad, al⟩ := a
  obtain ⟨hal, -, -⟩ := Parse_utc date _ hdate
  simp only at hal heq
  subst hal
  rw [NextDate_daily_eq Local fuel now _ date tok n hnow hdate htok hn.2, nextDaily_eq]
  by_cases h1 : n = 1
  · simp only [if_pos h1, if_pos heq]
  · simp only [if_neg h1, if_pos heq]

theorem C2_witness :
    NextDate Zone.utc 0 ⟨738959, false⟩ "20240315".toList ('d' :: ' ' :: "3".toList) =
      some (Res.ok (Time.Format
        ⟨if (3 : Int) = 1 then (738959 : Int) else 738959 + 3, false⟩)) :=
  C2_daily_anchor_today Zone.utc 0 ⟨738959, false⟩ ⟨738959, false⟩ "20240315".toList
    "3".toList 3 (by decide) (by decide) (by decide) (by decide) rfl

/-- Claim C2 fails at `n = 1`: with anchor and today both 2024-03-15 the rule `d 1`
returns 20240315, not the anchor plus one day (20240316). -/
theorem C2_counterexample :
    NextDate Zone.utc 5 ⟨738959, false⟩ "20240315".toList "d 1".toList =
        some (Res.ok "20240315".toList) ∧
      Time.Format ⟨738959 + 1, false⟩ = "20240316".toList ∧
      NextDate Zone.utc 5 ⟨738959, false⟩ "20240315".toList "d 1".toList ≠
        some (Res.ok (Time.Format ⟨738959 + 1, false⟩)) := by
  decide

/-- Claim C3 at a process whose `time.Local` lies five hours west of UTC: rule `d 2`,
anchor 2024-03-13, today 2024-03-15.  The date 2024-03-15 is in the sequence and is not
before today, yet the call returns 20240317, which is today plus `n`. -/
theorem C3_west_of_utc :
    NextDate (Zone.fixed (-18000) (by decide)) 10 ⟨738959, false⟩ "20240313".toList
        "d 2".toList = some (Res.ok "20240317".toList) ∧
      NextDate Zone.utc 10 ⟨738959, false⟩ "20240313".toList "d 2".toList =
        some (Res.ok "20240315".toList) := by
  decide

/-! ## Loops and searches -/

/-- A `for cond { step }` loop that walks along a sequence `f` leaves it at the first
index where the condition fails. -/
theorem loopWhile_seq (cond : Time → Bool) (step : Time → Time) :
    ∀ (K : Nat) (f : Nat → Time), (∀ k, step (f k) = f (k + 1)) → cond (f K) = false →
      (∀ j, j < K → cond (f j) = true) → ∀ fuel, K ≤ fuel →
      loopWhile cond step fuel (f 0) = some (f K) := by
  intro K
  induction K with
  | zero =>
    intro f _ hK _ fuel _
    cases fuel <;> simp only [loopWhile, hK] <;> rfl
  | succ K ih =>
    intro f hstep hK hlt fuel hf
    cases fuel with
    | zero => omega
    | succ fuel =>
      have h0 := hlt 0 (by omega)
      simp only [loopWhile, h0, if_true, hstep]
      exact ih (fun k => f (k + 1)) (fun k => hstep (k + 1)) hK
        (fun j hj => hlt (j + 1) (by omega)) fuel (by omega)

/-- A `for { step; if cond { return } }` loop that walks along a sequence `f` returns the
first element after the start that meets the condition. -/
theorem stepUntil_seq (cond : Time → Bool) (step : Time → Time) :
    ∀ (K : Nat) (f : Nat → Time), (∀ k, step (f k) = f (k + 1)) → cond (f (K + 1)) = true →
      (∀ j, 1 ≤ j → j ≤ K → cond (f j) = false) → ∀ fuel, K + 1 ≤ fuel →
      stepUntil cond step fuel (f 0) = some (f (K + 1)) := by
  intro K
  induction K with
  | zero =>
    intro f hstep hK _ fuel hf
    cases fuel with
    | zero => omega
    | succ fuel => simp only [stepUntil, hstep, hK, if_true]
  | succ K ih =>
    intro f hstep hK hlt fuel hf
    cases fuel with
    | zero => omega
    | succ fuel =>
      have h1 := hlt 1 (by omega) (by omega)
      simp only [stepUntil, hstep, h1, Bool.false_eq_true, if_false]
      exact ih (fun k => f (k + 1)) (fun k => hstep (k + 1)) hK
        (fun j hj1 hj2 => hlt (j + 1) (by omega) (by omega)) fuel (by omega)

/-- A search that can never succeed uses up any fuel. -/
theorem stepUntil_never (cond : Time → Bool) (step : Time → Time) (h : ∀ r, cond r = false) :
    ∀ (fuel : Nat) (r : Time), stepUntil cond step fuel r = none := by
  intro fuel
  induction fuel with
  | zero => intro r; rfl
  | succ fuel ih =>
    intro r
    simp only [stepUntil, h, Bool.false_eq_true, if_false, ih]

/-- Among the positive indices up to one that satisfies `P` there is a first one. -/
theorem exists_first (P : Nat → Prop) [DecidablePred P] (k0 : Nat) (h1 : 1 ≤ k0) (hP : P k0) :
    ∃ K, K + 1 ≤ k0 ∧ P (K + 1) ∧ ∀ j, 1 ≤ j → j ≤ K → ¬ P j := by
  have hex : ∃ k, P (k + 1) := ⟨k0 - 1, by rw [Nat.sub_add_cancel h1]; exact hP⟩
  refine ⟨Nat.find hex, ?_, Nat.find_spec hex, ?_⟩
  · have := Nat.find_min' hex (show P (k0 - 1 + 1) by rw [Nat.sub_add_cancel h1]; exact hP)
    omega
  · intro j hj1 hj2 hPj
    have := Nat.find_min' hex (show P (j - 1 + 1) by rw [Nat.sub_add_cancel hj1]; exact hPj)
    omega

/-! ## Rule texts -/

theorem Join_noSep (sep c : Char) (hc : c ≠ sep) :
    ∀ toks : List Str, (∀ t ∈ toks, c ∉ t) → c ∉ Join sep toks
  | [], _ => by simp [Join]
  | [t], h => by simpa [Join] using h
  | t :: u :: ts, h => by
    have ih := Join_noSep sep c hc (u :: ts) (fun x hx => h x (List.mem_cons_of_mem _ hx))
    have ht := h t (List.mem_cons_self _ _)
    simp only [Join, List.mem_append, List.mem_cons, not_or]
    exact ⟨ht, hc, ih⟩

theorem Split_Join (sep : Char) :
    ∀ toks : List Str, toks ≠ [] → (∀ t ∈ toks, sep ∉ t) → Split sep (Join sep toks) = toks
  | [], h, _ => absurd rfl h
  | [t], _, h => by
    simp only [Join]
    exact Split_noSep sep t (h t (List.mem_cons_self _ _))
  | t :: u :: ts, _, h => by
    have ih := Split_Join sep (u :: ts) (by simp) (fun x hx => h x (List.mem_cons_of_mem _ hx))
    simp only [Join]
    rw [Split_append sep t _ (h t (List.mem_cons_self _ _)), ih]

theorem tokens_clean (toks : List Str) (L : List Int)
    (h : List.Forall₂ (fun t v => Atoi t = (v, none)) toks L) :
    (∀ t ∈ toks, ' ' ∉ t) ∧ (∀ t ∈ toks, ',' ∉ t) := by
  induction h with
  | nil => simp
  | @cons t v ts vs hd _ ih =>
    have hn : (Atoi t).2 = none := by rw [hd]
    constructor
    · intro x hx
      rcases List.mem_cons.mp hx with e | e
      · rw [e]; exact Atoi_noSpace t hn
      · exact ih.1 x e
    · intro x hx
      rcases List.mem_cons.mp hx with e | e
      · rw [e]; exact Atoi_noComma t hn
      · exact ih.2 x e

theorem parseDays_ok (toks : List Str) (L : List Int)
    (h : List.Forall₂ (fun t v => Atoi t = (v, none)) toks L) (hL : ∀ v ∈ L, v ≤ 400) :
    parseDays toks = .ok L := by
  induction h with
  | nil => rfl
  | @cons t v ts vs hd _ ih =>
    have hv : ¬ (400 < v) := by
      have := hL v (List.mem_cons_self _ _)
      omega
    simp only [parseDays, hd, hv, if_false, ih (fun x hx => hL x (List.mem_cons_of_mem _ hx))]

theorem parseMonths_ok (toks : List Str) (M : List Int)
    (h : List.Forall₂ (fun t v => Atoi t = (v, none)) toks M) (hM : ∀ v ∈ M, 1 ≤ v ∧ v ≤ 12) :
    parseMonths toks = .ok M := by
  induction h with
  | nil => rfl
  | @cons t v ts vs hd _ ih =>
    have hv : ¬ (12 < v ∨ v < 1) := by
      have := hM v (List.mem_cons_self _ _)
      omega
    simp only [parseMonths, hd, hv, if_false, ih (fun x hx => hM x (List.mem_cons_of_mem _ hx))]

theorem weekdaySet_ok : ∀ L : List Int, (∀ v ∈ L, 1 ≤ v ∧ v ≤ 7) →
    weekdaySet L = .ok (L.map (fun d => if d = 7 then 0 else d))
  | [], _ => rfl
  | v :: vs, h => by
    have hv : ¬ (v < 1 ∨ 7 < v) := by
      have := h v (List.mem_cons_self _ _)
      omega
    simp only [weekdaySet, hv, if_false,
      weekdaySet_ok vs (fun x hx => h x (List.mem_cons_of_mem _ hx)), List.map_cons]

theorem monthSet_ok : ∀ M : List Int, (∀ v ∈ M, 1 ≤ v ∧ v ≤ 12) → monthSet M = .ok M
  | [], _ => rfl
  | v :: vs, h => by
    have hv : ¬ (v < 1 ∨ 12 < v) := by
      have := h v (List.mem_cons_self _ _)
      omega
    simp only [monthSet, hv, if_false, monthSet_ok vs (fun x hx => h x (List.mem_cons_of_mem _ hx))]

theorem monthDaySet_pos (Local : Zone) (fuel : Nat) (wm : List Int) (now ds : Time) :
    ∀ D : List Int, (∀ v ∈ D, 1 ≤ v ∧ v ≤ 31) →
      monthDaySet Local fuel wm now ds D = some (.ok D)
  | [], _ => rfl
  | v :: vs, h => by
    have hv := h v (List.mem_cons_self _ _)
    have h1 : ¬ (31 < v ∨ v < -2) := by omega
    have h2 : 0 < v := by omega
    simp only [monthDaySet, h1, h2, if_false, if_true,
      monthDaySet_pos Local fuel wm now ds vs (fun x hx => h x (List.mem_cons_of_mem _ hx))]

/-! ## The weekly rule -/

/-- The front end of `NextDate` on a weekly rule with one comma-separated argument. -/
theorem NextDate_weekly_eq (Local : Zone) (fuel : Nat) (now a : Time) (date : Str)
    (toks : List Str) (L : List Int) (hnow : 0 ≤ now.Year ∧ now.Year ≤ 9999)
    (hdate : Parse date = some a)
    (hF : List.Forall₂ (fun t v => Atoi t = (v, none)) toks L) (hne : toks ≠ [])
    (h400 : ∀ v ∈ L, v ≤ 400) :
    NextDate Local fuel now date ('w' :: ' ' :: Join ',' toks) =
      nextWeekly Local fuel ⟨now.day, false⟩ a L := by
  obtain ⟨hsp0, hcm0⟩ := tokens_clean toks L hF
  have hsp : Split ' ' ('w' :: ' ' :: Join ',' toks) = [['w'], Join ',' toks] := by
    have h1 := Split_append ' ' ['w'] (Join ',' toks) (by decide)
    rw [Split_noSep ' ' _ (Join_noSep ',' ' ' (by decide) toks hsp0)] at h1
    exact h1
  have hcm : Split ',' (Join ',' toks) = toks := Split_Join ',' toks hne hcm0
  have hpd : parseDays toks = .ok L := parseDays_ok toks L hF h400
  have hcount : ¬ (3 < 2 ∨ ((['w'] : Str) = ['y'] ∧ 1 < 2) ∨ ((['w'] : Str) = ['d'] ∧ 2 = 1) ∨
      ((['w'] : Str) = ['d'] ∧ 2 < 2) ∨ ((['w'] : Str) = ['w'] ∧ 2 < 2)) := by decide
  have r1 : ¬ ((['w'] : Str) = []) := by decide
  have r2 : ¬ ((['w'] : Str) = ['d']) := by decide
  have r3 : ¬ ((['w'] : Str) = ['y']) := by decide
  simp only [NextDate, hsp, List.headD_cons, List.length_cons, List.length_nil, Nat.reduceAdd,
    zero_add, if_neg hcount, Nat.one_lt_ofNat, if_true, List.getD_cons_succ, List.getD_cons_zero,
    hcm, hpd, lt_self_iff_false, if_false, Parse_Format now hnow.1 hnow.2, hdate]
  simp only [r1, r2, r3, if_false, if_true]
  exact if_neg (by decide)

theorem ruleWeekday_eq (z : Int) : Time.ruleWeekday ⟨z, false⟩ = z % 7 + 1 := by
  simp only [Time.ruleWeekday, Time.Weekday]
  split_ifs <;> omega

theorem weekday_mem (L : List Int) (hr : ∀ v ∈ L, 1 ≤ v ∧ v ≤ 7) (z : Int) :
    Time.Weekday ⟨z, false⟩ ∈ L.map (fun d => if d = 7 then 0 else d) ↔
      Time.ruleWeekday ⟨z, false⟩ ∈ L := by
  rw [ruleWeekday_eq]
  simp only [Time.Weekday, List.mem_map]
  constructor
  · rintro ⟨v, hv, e⟩
    have := hr v hv
    have e2 : z % 7 + 1 = v := by
      split_ifs at e <;> omega
    rw [e2]; exact hv
  · intro h
    refine ⟨_, h, ?_⟩
    split_ifs <;> omega

/-- Claim C4.  For a weekly rule `w L` (`toks` are texts that `strconv.Atoi` reads as the
non-empty list `L` of integers in 1..7), a parsed anchor and a today with a four-digit
year, `NextDate` returns — with fuel for seven loop rounds — the earliest date strictly
after `max(anchor, today)` whose weekday (1 = Monday ... 7 = Sunday) is in `L`; that date
is at most seven days after the start and not before today. -/
theorem C4_weekly_earliest (Local : Zone) (now a : Time) (date : Str) (toks : List Str)
    (L : List Int) (hnow : 0 ≤ now.Year ∧ now.Year ≤ 9999) (hdate : Parse date = some a)
    (hF : List.Forall₂ (fun t v => Atoi t = (v, none)) toks L) (hne : L ≠ [])
    (hr : ∀ v ∈ L, 1 ≤ v ∧ v ≤ 7) :
    ∃ r : Int, max a.day now.day < r ∧ r ≤ max a.day now.day + 7 ∧ now.day ≤ r ∧
      Time.ruleWeekday ⟨r, false⟩ ∈ L ∧
      (∀ z, max a.day now.day < z → z < r → Time.ruleWeekday ⟨z, false⟩ ∉ L) ∧
      ∀ fuel : Nat, 7 ≤ fuel →
        NextDate Local fuel now date ('w' :: ' ' :: Join ',' toks) =
          some (Res.ok (Time.Format ⟨r, false⟩)) := by
  obtain ⟨ad, al⟩ := a
  obtain ⟨hal, -, -⟩ := Parse_utc date _ hdate
  simp only at hal
  subst hal
  simp only
  generalize hs : max ad now.day = s
  have htne : toks ≠ [] := by
    intro e; subst e; cases hF; exact hne rfl
  -- some day of the next seven has a wanted weekday
  obtain ⟨v, hv⟩ := List.exists_mem_of_ne_nil L hne
  have hvr := hr v hv
  let P : Nat → Prop := fun j => Time.ruleWeekday ⟨s + j, false⟩ ∈ L
  have hk0 : P (((v - 2 - s) % 7 + 1).toNat) := by
    show Time.ruleWeekday ⟨s + (((v - 2 - s) % 7 + 1).toNat : Nat), false⟩ ∈ L
    rw [ruleWeekday_eq]
    have e : (s + (((v - 2 - s) % 7 + 1).toNat : Nat)) % 7 + 1 = v := by omega
    rw [e]; exact hv
  obtain ⟨K, hK1, hK2, hK3⟩ := exists_first P (((v - 2 - s) % 7 + 1).toNat) (by omega) hk0
  have hK7 : K + 1 ≤ 7 := by omega
  refine ⟨s + (K + 1 : Nat), by omega, by omega, by omega, hK2, ?_, ?_⟩
  · intro z hz1 hz2
    have := hK3 (z - s).toNat (by omega) (by omega)
    have e : s + ((z - s).toNat : Nat) = z := by omega
    simp only [P, e] at this
    exact this
  · intro fuel hf
    rw [NextDate_weekly_eq Local fuel now _ date toks L hnow hdate hF htne
      (fun x hx => by have := hr x hx; omega)]
    have hstart : (if Time.Before Local ⟨ad, false⟩ ⟨now.day, false⟩ then
        (⟨now.day, false⟩ : Time) else ⟨ad, false⟩) = ⟨s, false⟩ := by
      rw [Before_utc, ← hs]
      by_cases h : ad < now.day
      · simp only [h, decide_True, if_true, max_eq_right (le_of_lt h)]
      · simp only [h, decide_False, Bool.false_eq_true, if_false, max_eq_left (not_lt.mp h)]
    have hsearch := stepUntil_seq
      (fun r => decide (r.Weekday ∈ L.map (fun d => if d = 7 then 0 else d)))
      (fun r => r.AddDate 0 0 1) K (fun k => ⟨s + k, false⟩)
      (fun k => by
        show Time.AddDate ⟨s + k, false⟩ 0 0 1 = ⟨s + ((k + 1 : Nat) : Int), false⟩
        rw [AddDate_days]
        simp only [Nat.cast_add, Nat.cast_one, add_assoc])
      (by
        simp only [decide_eq_true_eq]
        exact (weekday_mem L hr _).mpr hK2)
      (fun j hj1 hj2 => by
        simp only [decide_eq_false_iff_not]
        intro hmem
        exact hK3 j hj1 hj2 ((weekday_mem L hr _).mp hmem))
      fuel (by omega)
    simp only [Nat.cast_zero, add_zero] at hsearch
    have hnb : Time.Before Local ⟨s + (K + 1 : Nat), false⟩ ⟨now.day, false⟩ = false := by
      rw [Before_utc]
      simp only [decide_eq_false_iff_not]
      omega
    simp only [nextWeekly, weekdaySet_ok L hr, hstart, hsearch, hnb, Bool.false_eq_true, if_false]

theorem C4_witness :
    ∃ r : Int, max (738954 : Int) 738959 < r ∧ r ≤ max (738954 : Int) 738959 + 7 ∧
      (738959 : Int) ≤ r ∧ Time.ruleWeekday ⟨r, false⟩ ∈ [(1 : Int), 3] ∧
      (∀ z, max (738954 : Int) 738959 < z → z < r → Time.ruleWeekday ⟨z, false⟩ ∉ [(1 : Int), 3]) ∧
      ∀ fuel : Nat, 7 ≤ fuel →
        NextDate Zone.utc fuel ⟨738959, false⟩ "20240310".toList
          ('w' :: ' ' :: Join ',' ["1".toList, "3".toList]) =
          some (Res.ok (Time.Format ⟨r, false⟩)) :=
  C4_weekly_earliest Zone.utc ⟨738959, false⟩ ⟨738954, false⟩ "20240310".toList
    ["1".toList, "3".toList] [1, 3] (by decide) (by decide)
    (List.Forall₂.cons (by decide) (List.Forall₂.cons (by decide) List.Forall₂.nil))
    (by decide) (by decide)

/-! ## The yearly rule -/

theorem NextDate_yearly_eq (Local : Zone) (fuel : Nat) (now a : Time) (date : Str)
    (hnow : 0 ≤ now.Year ∧ now.Year ≤ 9999) (hdate : Parse date = some a) :
    NextDate Local fuel now date ['y'] = nextYearly Local fuel ⟨now.day, false⟩ a := by
  have hsp : Split ' ' ['y'] = [['y']] := by decide
  have hcount : ¬ (3 < 1 ∨ ((['y'] : Str) = ['y'] ∧ 1 < 1) ∨ ((['y'] : Str) = ['d'] ∧ 1 = 1) ∨
      ((['y'] : Str) = ['d'] ∧ 1 < 1) ∨ ((['y'] : Str) = ['w'] ∧ 1 < 1)) := by decide
  have r1 : ¬ ((['y'] : Str) = []) := by decide
  have r2 : ¬ ((['y'] : Str) = ['d']) := by decide
  simp only [NextDate, hsp, List.headD_cons, List.length_cons, List.length_nil,
    zero_add, if_neg hcount, lt_self_iff_false, if_false, Parse_Format now hnow.1 hnow.2, hdate]
  simp only [r1, r2, if_false, if_true]
  rfl

/-- One year later the same month and day lie 365 or 366 days ahead. -/
theorem dateToDays_year_step (y m d : Int) (h1 : 1 ≤ m) (h2 : m ≤ 12) :
    dateToDays y m d + 365 ≤ dateToDays (y + 1) m d ∧
      dateToDays (y + 1) m d ≤ dateToDays y m d + 366 := by
  rw [dateToDays_norm _ _ _ h1 h2, dateToDays_norm _ _ _ h1 h2]
  have hs := daysBeforeYear_succ y
  simp only [daysBefore]
  have hl : isLeap y = true → isLeap (y + 1) = false := by
    intro h
    rw [isLeap_iff] at h
    cases h2 : isLeap (y + 1)
    · rfl
    · rw [isLeap_iff] at h2; omega
  generalize daysBeforeYear (y + 1) = A at *
  generalize daysBeforeYear y = B at *
  generalize cumDays m = C at *
  cases ha : isLeap y <;> cases hb : isLeap (y + 1) <;> simp only [ha, hb] at hs hl ⊢ <;>
    by_cases hm : 2 < m <;>
    simp only [hm, decide_True, decide_False, Bool.and_true, Bool.and_false, Bool.and_self,
      Bool.false_eq_true, if_false, if_true] at hs ⊢ <;>
    omega

theorem dateToDays_year_growth (y m d : Int) (h1 : 1 ≤ m) (h2 : m ≤ 12) (k : Nat) :
    dateToDays y m d + 365 * k ≤ dateToDays (y + k) m d := by
  induction k with
  | zero => simp
  | succ k ih =>
    have := (dateToDays_year_step (y + k) m d h1 h2).1
    have e : y + ((k + 1 : Nat) : Int) = y + k + 1 := by push_cast; ring
    rw [e]
    push_cast
    omega

theorem dateToDays_year_mono (y m d : Int) (h1 : 1 ≤ m) (h2 : m ≤ 12) (j k : Nat) (h : j ≤ k) :
    dateToDays (y + j) m d ≤ dateToDays (y + k) m d := by
  have := dateToDays_year_growth (y + j) m d h1 h2 (k - j)
  have e : y + (j : Int) + ((k - j : Nat) : Int) = y + k := by omega
  rw [e] at this
  omega

/-- A day of the month that is not 29 February exists in every year. -/
theorem daysIn_every_year (y z m d : Int) (h1 : 1 ≤ m) (h2 : m ≤ 12) (hd : d ≤ daysIn m y)
    (h29 : ¬ (m = 2 ∧ d = 29)) : d ≤ daysIn m z := by
  obtain ⟨L, hL, hL01, v1, v2, v3, v4, v5, v6, v7, v8, v9, v10, v11, v12, v13⟩ :=
    daysBefore_vals y
  obtain ⟨M, hM, hM01, w1, w2, w3, w4, w5, w6, w7, w8, w9, w10, w11, w12, w13⟩ :=
    daysBefore_vals z
  simp only [daysIn] at hd ⊢
  have hcases : m = 1 ∨ m = 2 ∨ m = 3 ∨ m = 4 ∨ m = 5 ∨ m = 6 ∨ m = 7 ∨ m = 8 ∨ m = 9 ∨ m = 10
      ∨ m = 11 ∨ m = 12 := by omega
  rcases hcases with h | h | h | h | h | h | h | h | h | h | h | h <;> subst h <;>
  simp only [Int.reduceAdd, v1, v2, v3, v4, v5, v6, v7, v8, v9, v10, v11, v12, v13,
    w1, w2, w3, w4, w5, w6, w7, w8, w9, w10, w11, w12, w13] at hd ⊢ <;>
  clear v1 v2 v3 v4 v5 v6 v7 v8 v9 v10 v11 v12 v13 w1 w2 w3 w4 w5 w6 w7 w8 w9 w10 w11 w12 w13
    <;> omega

/-- The loop of the yearly case, started at month `m`, day `d` of year `y1`, for a day
that exists in every year: it stops in the first year `y1 + K` whose date is not before
today. -/
theorem yearly_loop (Local : Zone) (nowd y1 m d : Int) (h1 : 1 ≤ m) (h2 : m ≤ 12) (hd1 : 1 ≤ d)
    (hv : ∀ z, d ≤ daysIn m z) :
    ∃ K : Nat, nowd ≤ dateToDays (y1 + K) m d ∧
      (∀ j : Nat, j < K → dateToDays (y1 + j) m d < nowd) ∧
      ∀ fuel : Nat, nowd - dateToDays y1 m d ≤ fuel →
        loopWhile (fun r => r.Before Local ⟨nowd, false⟩) (fun r => r.AddDate 1 0 0) fuel
          ⟨dateToDays y1 m d, false⟩ = some ⟨dateToDays (y1 + K) m d, false⟩ := by
  have hex : ∃ K : Nat, nowd ≤ dateToDays (y1 + K) m d := by
    refine ⟨(nowd - dateToDays y1 m d).toNat, ?_⟩
    have := dateToDays_year_growth y1 m d h1 h2 (nowd - dateToDays y1 m d).toNat
    omega
  refine ⟨Nat.find hex, Nat.find_spec hex, ?_, ?_⟩
  · intro j hj
    have := Nat.find_min hex hj
    omega
  · intro fuel hf
    have hKf : Nat.find hex ≤ fuel := by
      by_contra hcon
      have hlt : fuel < Nat.find hex := by omega
      have h3 := Nat.find_min hex hlt
      have h4 := dateToDays_year_growth y1 m d h1 h2 fuel
      omega
    have key := loopWhile_seq (fun r => r.Before Local ⟨nowd, false⟩) (fun r => r.AddDate 1 0 0)
      (Nat.find hex) (fun k => ⟨dateToDays (y1 + k) m d, false⟩)
      (fun k => by
        show Time.AddDate ⟨dateToDays (y1 + k) m d, false⟩ 1 0 0 =
          ⟨dateToDays (y1 + ((k + 1 : Nat) : Int)) m d, false⟩
        simp only [Time.AddDate, civil_dateToDays _ m d h1 h2 hd1 (hv _), add_zero]
        congr 2
        push_cast
        ring)
      (by
        show Time.Before Local ⟨dateToDays (y1 + (Nat.find hex : Nat)) m d, false⟩
          ⟨nowd, false⟩ = false
        rw [Before_utc]
        simp only [decide_eq_false_iff_not, not_lt]
        exact Nat.find_spec hex)
      (fun j hj => by
        show Time.Before Local ⟨dateToDays (y1 + (j : Nat)) m d, false⟩ ⟨nowd, false⟩ = true
        rw [Before_utc]
        simp only [decide_eq_true_eq]
        have := Nat.find_min hex hj
        omega)
      fuel hKf
    simp only [Nat.cast_zero, add_zero] at key
    exact key

/-- The yearly case for an anchor that is not 29 February, over day numbers. -/
theorem nextYearly_regular (Local : Zone) (nowd : Int) (a : Time) (hal : a.isLocal = false)
    (h29 : ¬ (a.Month = 2 ∧ a.Day = 29)) :
    ∃ K : Nat, nowd ≤ dateToDays (a.Year + 1 + K) a.Month a.Day ∧
      (∀ j : Nat, j < K → dateToDays (a.Year + 1 + j) a.Month a.Day < nowd) ∧
      civil (dateToDays (a.Year + 1 + K) a.Month a.Day) = ⟨a.Year + 1 + K, a.Month, a.Day⟩ ∧
      a.day < dateToDays (a.Year + 1 + K) a.Month a.Day ∧
      ∀ fuel : Nat, nowd - a.day ≤ fuel →
        nextYearly Local fuel ⟨nowd, false⟩ a =
          some (Res.ok (Time.Format ⟨dateToDays (a.Year + 1 + K) a.Month a.Day, false⟩)) := by
  obtain ⟨m1, m2, d1, d2, hday⟩ := civil_valid a.day
  have hv : ∀ z, a.Day ≤ daysIn a.Month z := fun z =>
    daysIn_every_year a.Year z a.Month a.Day m1 m2 d2 h29
  obtain ⟨K, hK1, hK2, hK3⟩ := yearly_loop Local nowd (a.Year + 1) a.Month a.Day m1 m2 d1 hv
  have hstep := dateToDays_year_step a.Year a.Month a.Day m1 m2
  have hgrow := dateToDays_year_mono (a.Year + 1) a.Month a.Day m1 m2 0 K (by omega)
  simp only [Nat.cast_zero, add_zero] at hgrow
  have hday2 : dateToDays a.Year a.Month a.Day = a.day := hday
  refine ⟨K, hK1, hK2, civil_dateToDays _ _ _ m1 m2 d1 (hv _), by omega, ?_⟩
  intro fuel hf
  have hadd : a.AddDate 1 0 0 = ⟨dateToDays (a.Year + 1) a.Month a.Day, false⟩ := by
    simp only [Time.AddDate, add_zero, hal]
    rfl
  simp only [nextYearly, hadd, hK3 fuel (by omega), Option.map_some']

/-- Claim C10.  For the rule `y`, an anchor that is not 29 February and any today with a
four-digit year, `NextDate` returns the anchor's month and day in the least year `y`
after the anchor's year whose date is not before today; the result is after the anchor. -/
theorem C10_yearly_least_year (Local : Zone) (now a : Time) (date : Str)
    (hnow : 0 ≤ now.Year ∧ now.Year ≤ 9999) (hdate : Parse date = some a)
    (h29 : ¬ (a.Month = 2 ∧ a.Day = 29)) :
    ∃ y : Int, a.Year < y ∧ now.day ≤ dateToDays y a.Month a.Day ∧
      (∀ z : Int, a.Year < z → z < y → dateToDays z a.Month a.Day < now.day) ∧
      a.day < dateToDays y a.Month a.Day ∧
      civil (dateToDays y a.Month a.Day) = ⟨y, a.Month, a.Day⟩ ∧
      ∀ fuel : Nat, now.day - a.day ≤ fuel →
        NextDate Local fuel now date ['y'] =
          some (Res.ok (Time.Format ⟨dateToDays y a.Month a.Day, false⟩)) := by
  obtain ⟨hal, -, -⟩ := Parse_utc date _ hdate
  obtain ⟨K, hK1, hK2, hK3, hK4, hK5⟩ := nextYearly_regular Local now.day a hal h29
  refine ⟨a.Year + 1 + K, by omega, hK1, ?_, hK4, hK3, ?_⟩
  · intro z hz1 hz2
    have := hK2 (z - a.Year - 1).toNat (by omega)
    have e : a.Year + 1 + ((z - a.Year - 1).toNat : Nat) = z := by omega
    rw [e] at this
    exact this
  · intro fuel hf
    rw [NextDate_yearly_eq Local fuel now a date hnow hdate]
    exact hK5 fuel hf

theorem C10_witness :
    ∃ y : Int, (Time.Year ⟨738954, false⟩) < y ∧
      (738959 : Int) ≤ dateToDays y (Time.Month ⟨738954, false⟩) (Time.Day ⟨738954, false⟩) ∧
      (∀ z : Int, (Time.Year ⟨738954, false⟩) < z → z < y →
        dateToDays z (Time.Month ⟨738954, false⟩) (Time.Day ⟨738954, false⟩) < 738959) ∧
      (738954 : Int) < dateToDays y (Time.Month ⟨738954, false⟩) (Time.Day ⟨738954, false⟩) ∧
      civil (dateToDays y (Time.Month ⟨738954, false⟩) (Time.Day ⟨738954, false⟩)) =
        ⟨y, Time.Month ⟨738954, false⟩, Time.Day ⟨738954, false⟩⟩ ∧
      ∀ fuel : Nat, (738959 : Int) - 738954 ≤ fuel →
        NextDate Zone.utc fuel ⟨738959, false⟩ "20240310".toList ['y'] =
          some (Res.ok (Time.Format
            ⟨dateToDays y (Time.Month ⟨738954, false⟩) (Time.Day ⟨738954, false⟩), false⟩)) :=
  C10_yearly_least_year Zone.utc ⟨738959, false⟩ ⟨738954, false⟩ "20240310".toList
    (by decide) (by decide) (by decide)

/-- The yearly case for an anchor on 29 February: one year later the date is 1 March,
and the loop then moves from 1 March to 1 March. -/
theorem nextYearly_leapday (Local : Zone) (nowd : Int) (a : Time) (hal : a.isLocal = false)
    (h29 : a.Month = 2 ∧ a.Day = 29) :
    ∃ K : Nat, nowd ≤ dateToDays (a.Year + 1 + K) 3 1 ∧
      civil (dateToDays (a.Year + 1 + K) 3 1) = ⟨a.Year + 1 + K, 3, 1⟩ ∧
      ∀ fuel : Nat, nowd - a.day ≤ fuel →
        nextYearly Local fuel ⟨nowd, false⟩ a =
          some (Res.ok (Time.Format ⟨dateToDays (a.Year + 1 + K) 3 1, false⟩)) := by
  obtain ⟨m1, m2, d1, d2, hday⟩ := civil_valid a.day
  have hday2 : dateToDays a.Year a.Month a.Day = a.day := hday
  have hd2 : a.Day ≤ daysIn a.Month a.Year := d2
  rw [h29.1, h29.2] at hday2 hd2
  have hv : ∀ z, (1 : Int) ≤ daysIn 3 z := by
    intro z
    obtain ⟨L, hL, hL01, v1, v2, v3, v4, v5, v6, v7, v8, v9, v10, v11, v12, v13⟩ :=
      daysBefore_vals z
    simp only [daysIn, Int.reduceAdd, v3, v4]
    clear v1 v2 v3 v4 v5 v6 v7 v8 v9 v10 v11 v12 v13
    omega
  -- the anchor's year is a leap year, the next one is not
  have hleap : isLeap a.Year = true := by
    obtain ⟨L, hL, hL01, v1, v2, v3, v4, v5, v6, v7, v8, v9, v10, v11, v12, v13⟩ :=
      daysBefore_vals a.Year
    simp only [daysIn, Int.reduceAdd, v2, v3] at hd2
    clear v1 v2 v3 v4 v5 v6 v7 v8 v9 v10 v11 v12 v13
    cases hc : isLeap a.Year
    · rw [hc] at hL
      simp only [Bool.false_eq_true, if_false] at hL
      omega
    · rfl
  have hnext : isLeap (a.Year + 1) = false := by
    rw [isLeap_iff] at hleap
    cases hc : isLeap (a.Year + 1)
    · rfl
    · rw [isLeap_iff] at hc; omega
  have hmar : dateToDays (a.Year + 1) 2 29 = dateToDays (a.Year + 1) 3 1 := by
    rw [dateToDays_norm _ _ _ (by decide) (by decide),
      dateToDays_norm _ _ _ (by decide) (by decide)]
    obtain ⟨L, hL, hL01, v1, v2, v3, v4, v5, v6, v7, v8, v9, v10, v11, v12, v13⟩ :=
      daysBefore_vals (a.Year + 1)
    rw [hnext] at hL
    simp only [Bool.false_eq_true, if_false] at hL
    rw [v2, v3, hL]
    ring
  obtain ⟨K, hK1, hK2, hK3⟩ := yearly_loop Local nowd (a.Year + 1) 3 1 (by decide) (by decide)
    (by decide) hv
  refine ⟨K, hK1, civil_dateToDays _ _ _ (by decide) (by decide) (by decide) (hv _), ?_⟩
  intro fuel hf
  have hadd : a.AddDate 1 0 0 = ⟨dateToDays (a.Year + 1) 3 1, false⟩ := by
    simp only [Time.AddDate, add_zero, hal]
    show (⟨dateToDays (a.Year + 1) a.Month a.Day, false⟩ : Time) = _
    rw [h29.1, h29.2, hmar]
  have hstep := dateToDays_year_step a.Year 2 29 (by decide) (by decide)
  rw [hmar] at hstep
  simp only [nextYearly, hadd, hK3 fuel (by omega), Option.map_some']

/-- Claim C9, as amended.  For the rule `y` the returned date has the month and day of the
anchor when the anchor is not 29 February; an anchor on 29 February always resolves to
1 March, whether or not the year of the result is a leap year. -/
theorem C9_yearly_same_day (Local : Zone) (now a : Time) (date : Str)
    (hnow : 0 ≤ now.Year ∧ now.Year ≤ 9999) (hdate : Parse date = some a) :
    ∃ r : Time,
      (if a.Month = 2 ∧ a.Day = 29 then r.Month = 3 ∧ r.Day = 1
        else r.Month = a.Month ∧ r.Day = a.Day) ∧
      ∀ fuel : Nat, now.day - a.day ≤ fuel →
        NextDate Local fuel now date ['y'] = some (Res.ok r.Format) := by
  obtain ⟨hal, -, -⟩ := Parse_utc date _ hdate
  by_cases h29 : a.Month = 2 ∧ a.Day = 29
  · obtain ⟨K, -, hK2, hK3⟩ := nextYearly_leapday Local now.day a hal h29
    refine ⟨⟨dateToDays (a.Year + 1 + K) 3 1, false⟩, ?_, ?_⟩
    · rw [if_pos h29]
      simp only [Time.Month, Time.Day, hK2, and_self]
    · intro fuel hf
      rw [NextDate_yearly_eq Local fuel now a date hnow hdate]
      exact hK3 fuel hf
  · obtain ⟨K, -, -, hK3, -, hK5⟩ := nextYearly_regular Local now.day a hal h29
    refine ⟨⟨dateToDays (a.Year + 1 + K) a.Month a.Day, false⟩, ?_, ?_⟩
    · rw [if_neg h29]
      show (civil (dateToDays (a.Year + 1 + K) a.Month a.Day)).month = a.Month ∧
        (civil (dateToDays (a.Year + 1 + K) a.Month a.Day)).day = a.Day
      rw [hK3]
      exact ⟨rfl, rfl⟩
    · intro fuel hf
      rw [NextDate_yearly_eq Local fuel now a date hnow hdate]
      exact hK5 fuel hf

theorem C9_witness :
    ∃ r : Time,
      (if Time.Month ⟨738944, false⟩ = 2 ∧ Time.Day ⟨738944, false⟩ = 29
        then r.Month = 3 ∧ r.Day = 1
        else r.Month = Time.Month ⟨738944, false⟩ ∧ r.Day = Time.Day ⟨738944, false⟩) ∧
      ∀ fuel : Nat, (738959 : Int) - 738944 ≤ fuel →
        NextDate Zone.utc fuel ⟨738959, false⟩ "20240229".toList ['y'] =
          some (Res.ok r.Format) :=
  C9_yearly_same_day Zone.utc ⟨738959, false⟩ ⟨738944, false⟩ "20240229".toList
    (by decide) (by decide)

/-- Claim C9 fails for an anchor on 29 February: with anchor 2024-02-29 and today
2027-06-01 the call returns 20280301, although 2028 is a leap year and 2028-02-29
exists. -/
theorem C9_counterexample :
    Parse "20270601".toList = some ⟨740132, false⟩ ∧
      NextDate Zone.utc 10 ⟨740132, false⟩ "20240229".toList "y".toList =
        some (Res.ok "20280301".toList) ∧
      isLeap 2028 = true ∧ Parse "20280229".toList ≠ none := by
  decide

/-! ## The monthly rule -/

/-- The front end of `NextDate` on a monthly rule without a month list. -/
theorem NextDate_monthly_eq (Local : Zone) (fuel : Nat) (now a : Time) (date : Str)
    (toks : List Str) (D : List Int) (hnow : 0 ≤ now.Year ∧ now.Year ≤ 9999)
    (hdate : Parse date = some a)
    (hF : List.Forall₂ (fun t v => Atoi t = (v, none)) toks D) (hne : toks ≠ [])
    (h400 : ∀ v ∈ D, v ≤ 400) :
    NextDate Local fuel now date ('m' :: ' ' :: Join ',' toks) =
      nextMonthly Local fuel ⟨now.day, false⟩ a D [] := by
  obtain ⟨hsp0, hcm0⟩ := tokens_clean toks D hF
  have hsp : Split ' ' ('m' :: ' ' :: Join ',' toks) = [['m'], Join ',' toks] := by
    have h1 := Split_append ' ' ['m'] (Join ',' toks) (by decide)
    rw [Split_noSep ' ' _ (Join_noSep ',' ' ' (by decide) toks hsp0)] at h1
    exact h1
  have hcm : Split ',' (Join ',' toks) = toks := Split_Join ',' toks hne hcm0
  have hpd : parseDays toks = .ok D := parseDays_ok toks D hF h400
  have hcount : ¬ (3 < 2 ∨ ((['m'] : Str) = ['y'] ∧ 1 < 2) ∨ ((['m'] : Str) = ['d'] ∧ 2 = 1) ∨
      ((['m'] : Str) = ['d'] ∧ 2 < 2) ∨ ((['m'] : Str) = ['w'] ∧ 2 < 2)) := by decide
  have r1 : ¬ ((['m'] : Str) = []) := by decide
  have r2 : ¬ ((['m'] : Str) = ['d']) := by decide
  have r3 : ¬ ((['m'] : Str) = ['y']) := by decide
  have r4 : ¬ ((['m'] : Str) = ['w']) := by decide
  simp only [NextDate, hsp, List.headD_cons, List.length_cons, List.length_nil, Nat.reduceAdd,
    zero_add, if_neg hcount, Nat.one_lt_ofNat, if_true, List.getD_cons_succ, List.getD_cons_zero,
    hcm, hpd, lt_self_iff_false, if_false, Parse_Format now hnow.1 hnow.2, hdate]
  simp only [r1, r2, r3, r4, if_false, if_true]
  exact if_neg (by decide)

/-- The front end of `NextDate` on a monthly rule with a month list. -/
theorem NextDate_monthly_months_eq (Local : Zone) (fuel : Nat) (now a : Time) (date : Str)
    (dtoks mtoks : List Str) (D M : List Int) (hnow : 0 ≤ now.Year ∧ now.Year ≤ 9999)
    (hdate : Parse date = some a)
    (hFD : List.Forall₂ (fun t v => Atoi t = (v, none)) dtoks D) (hneD : dtoks ≠ [])
    (hFM : List.Forall₂ (fun t v => Atoi t = (v, none)) mtoks M) (hneM : mtoks ≠ [])
    (h400 : ∀ v ∈ D, v ≤ 400) (h12 : ∀ v ∈ M, 1 ≤ v ∧ v ≤ 12) :
    NextDate Local fuel now date ('m' :: ' ' :: (Join ',' dtoks ++ ' ' :: Join ',' mtoks)) =
      nextMonthly Local fuel ⟨now.day, false⟩ a D M := by
  obtain ⟨hspD, hcmD⟩ := tokens_clean dtoks D hFD
  obtain ⟨hspM, hcmM⟩ := tokens_clean mtoks M hFM
  have hsp : Split ' ' ('m' :: ' ' :: (Join ',' dtoks ++ ' ' :: Join ',' mtoks)) =
      [['m'], Join ',' dtoks, Join ',' mtoks] := by
    have h1 := Split_append ' ' ['m'] (Join ',' dtoks ++ ' ' :: Join ',' mtoks) (by decide)
    rw [Split_append ' ' _ _ (Join_noSep ',' ' ' (by decide) dtoks hspD),
      Split_noSep ' ' _ (Join_noSep ',' ' ' (by decide) mtoks hspM)] at h1
    exact h1
  have hcmd : Split ',' (Join ',' dtoks) = dtoks := Split_Join ',' dtoks hneD hcmD
  have hcmm : Split ',' (Join ',' mtoks) = mtoks := Split_Join ',' mtoks hneM hcmM
  have hpd : parseDays dtoks = .ok D := parseDays_ok dtoks D hFD h400
  have hpm : parseMonths mtoks = .ok M := parseMonths_ok mtoks M hFM h12
  have hcount : ¬ (3 < 3 ∨ ((['m'] : Str) = ['y'] ∧ 1 < 3) ∨ ((['m'] : Str) = ['d'] ∧ 3 = 1) ∨
      ((['m'] : Str) = ['d'] ∧ 2 < 3) ∨ ((['m'] : Str) = ['w'] ∧ 2 < 3)) := by decide
  have r1 : ¬ ((['m'] : Str) = []) := by decide
  have r2 : ¬ ((['m'] : Str) = ['d']) := by decide
  have r3 : ¬ ((['m'] : Str) = ['y']) := by decide
  have r4 : ¬ ((['m'] : Str) = ['w']) := by decide
  simp only [NextDate, hsp, List.headD_cons, List.length_cons, List.length_nil, Nat.reduceAdd,
    zero_add, if_neg hcount, Nat.one_lt_ofNat, if_true, List.getD_cons_succ, List.getD_cons_zero,
    hcmd, hcmm, hpd, hpm, lt_self_iff_false, if_false, Parse_Format now hnow.1 hnow.2, hdate]
  simp only [r1, r2, r3, r4, if_false, if_true]
  rfl

theorem daysIn_leap_ge (y z m : Int) (h1 : 1 ≤ m) (h2 : m ≤ 12) (hz : isLeap z = true) :
    daysIn m y ≤ daysIn m z := by
  obtain ⟨L, hL, hL01, v1, v2, v3, v4, v5, v6, v7, v8, v9, v10, v11, v12, v13⟩ :=
    daysBefore_vals y
  obtain ⟨M, hM, hM01, w1, w2, w3, w4, w5, w6, w7, w8, w9, w10, w11, w12, w13⟩ :=
    daysBefore_vals z
  rw [hz] at hM
  simp only [if_true] at hM
  simp only [daysIn]
  have hcases : m = 1 ∨ m = 2 ∨ m = 3 ∨ m = 4 ∨ m = 5 ∨ m = 6 ∨ m = 7 ∨ m = 8 ∨ m = 9 ∨ m = 10
      ∨ m = 11 ∨ m = 12 := by omega
  rcases hcases with h | h | h | h | h | h | h | h | h | h | h | h <;> subst h <;>
  simp only [Int.reduceAdd, v1, v2, v3, v4, v5, v6, v7, v8, v9, v10, v11, v12, v13,
    w1, w2, w3, w4, w5, w6, w7, w8, w9, w10, w11, w12, w13] <;>
  clear v1 v2 v3 v4 v5 v6 v7 v8 v9 v10 v11 v12 v13 w1 w2 w3 w4 w5 w6 w7 w8 w9 w10 w11 w12 w13
    <;> omega

theorem daysBefore_nonneg (y m : Int) (h1 : 1 ≤ m) (h2 : m ≤ 12) : 0 ≤ daysBefore y m := by
  obtain ⟨L, hL, hL01, v1, v2, v3, v4, v5, v6, v7, v8, v9, v10, v11, v12, v13⟩ :=
    daysBefore_vals y
  have hcases : m = 1 ∨ m = 2 ∨ m = 3 ∨ m = 4 ∨ m = 5 ∨ m = 6 ∨ m = 7 ∨ m = 8 ∨ m = 9 ∨ m = 10
      ∨ m = 11 ∨ m = 12 := by omega
  rcases hcases with h | h | h | h | h | h | h | h | h | h | h | h <;> subst h <;>
  simp only [v1, v2, v3, v4, v5, v6, v7, v8, v9, v10, v11, v12] <;>
  clear v1 v2 v3 v4 v5 v6 v7 v8 v9 v10 v11 v12 v13 <;> omega

/-- A month and day that exist in some year lie, in a later year, after any given day. -/
theorem exists_later_date (B m d : Int) (h1 : 1 ≤ m) (h2 : m ≤ 12) (hd : 1 ≤ d)
    (hex : ∃ y, d ≤ daysIn m y) :
    ∃ Y, B < dateToDays Y m d ∧ civil (dateToDays Y m d) = ⟨Y, m, d⟩ := by
  obtain ⟨y, hy⟩ := hex
  have hleap : isLeap (400 * ((B.toNat : Int) + 1)) = true := by
    rw [isLeap_iff]; omega
  have hv : d ≤ daysIn m (400 * ((B.toNat : Int) + 1)) :=
    le_trans hy (daysIn_leap_ge y _ m h1 h2 hleap)
  refine ⟨400 * ((B.toNat : Int) + 1), ?_, civil_dateToDays _ _ _ h1 h2 hd hv⟩
  rw [dateToDays_norm _ _ _ h1 h2]
  have hb : daysBeforeYear (400 * ((B.toNat : Int) + 1)) = 146097 * ((B.toNat : Int) + 1) - 366 := by
    unfold daysBeforeYear
    omega
  have hnn : 0 ≤ daysBefore (400 * ((B.toNat : Int) + 1)) m := daysBefore_nonneg _ m h1 h2
  rw [hb]
  generalize daysBefore (400 * ((B.toNat : Int) + 1)) m = A at *
  omega

/-- The monthly case with a month list and positive days: months and days are taken as
given and the search runs day by day from the anchor. -/
theorem nextMonthly_months (Local : Zone) (fuel : Nat) (now a : Time) (D M : List Int)
    (hD : ∀ v ∈ D, 1 ≤ v ∧ v ≤ 31) (hM : ∀ v ∈ M, 1 ≤ v ∧ v ≤ 12) (hMne : M ≠ []) :
    nextMonthly Local fuel now a D M =
      match stepUntil
          (fun r => decide (r.Month ∈ M) && decide (r.Day ∈ D) && now.Before Local r)
          (fun r => r.AddDate 0 0 1) fuel a with
      | none => none
      | some r =>
        if r.Before Local now then some (Res.err Err.pastResult) else some (Res.ok r.Format) := by
  simp only [nextMonthly, monthSet_ok M hM, monthDaySet_pos Local fuel M now a D hD, hMne,
    false_and, if_false]

/-- Claim C6.  For a monthly rule `m D M` with days `D` in 1..31 and months `M` in 1..12
such that some pair of a month of `M` and a day of `D` exists in the calendar, `NextDate`
returns — with fuel for `r - anchor` loop rounds — the earliest date `r` strictly after
both the anchor and today whose month is in `M` and whose day of the month is in `D`. -/
theorem C6_monthly_with_months (Local : Zone) (now a : Time) (date : Str)
    (dtoks mtoks : List Str) (D M : List Int) (hnow : 0 ≤ now.Year ∧ now.Year ≤ 9999)
    (hdate : Parse date = some a)
    (hFD : List.Forall₂ (fun t v => Atoi t = (v, none)) dtoks D)
    (hFM : List.Forall₂ (fun t v => Atoi t = (v, none)) mtoks M)
    (hD : ∀ v ∈ D, 1 ≤ v ∧ v ≤ 31) (hM : ∀ v ∈ M, 1 ≤ v ∧ v ≤ 12)
    (hex : ∃ m ∈ M, ∃ d ∈ D, ∃ y, d ≤ daysIn m y) :
    ∃ r : Int, a.day < r ∧ now.day < r ∧
      Time.Month ⟨r, false⟩ ∈ M ∧ Time.Day ⟨r, false⟩ ∈ D ∧
      (∀ z : Int, a.day < z → now.day < z → z < r →
        ¬ (Time.Month ⟨z, false⟩ ∈ M ∧ Time.Day ⟨z, false⟩ ∈ D)) ∧
      ∀ fuel : Nat, r - a.day ≤ fuel →
        NextDate Local fuel now date
          ('m' :: ' ' :: (Join ',' dtoks ++ ' ' :: Join ',' mtoks)) =
          some (Res.ok (Time.Format ⟨r, false⟩)) := by
  obtain ⟨ad, al⟩ := a
  obtain ⟨hal, -, -⟩ := Parse_utc date _ hdate
  simp only at hal
  subst hal
  simp only
  obtain ⟨m, hm, d, hd, hy⟩ := hex
  have hMne : M ≠ [] := List.ne_nil_of_mem hm
  have hDne : D ≠ [] := List.ne_nil_of_mem hd
  have hdt : dtoks ≠ [] := by
    intro e; subst e; cases hFD; exact hDne rfl
  have hmt : mtoks ≠ [] := by
    intro e; subst e; cases hFM; exact hMne rfl
  obtain ⟨Y, hY1, hY2⟩ := exists_later_date (max ad now.day) m d (hM m hm).1 (hM m hm).2
    (hD d hd).1 hy
  let P : Nat → Prop := fun j =>
    Time.Month ⟨ad + j, false⟩ ∈ M ∧ Time.Day ⟨ad + j, false⟩ ∈ D ∧ now.day < ad + j
  have hk0 : P (dateToDays Y m d - ad).toNat := by
    have e : ad + ((dateToDays Y m d - ad).toNat : Nat) = dateToDays Y m d := by omega
    show Time.Month ⟨ad + ((dateToDays Y m d - ad).toNat : Nat), false⟩ ∈ M ∧
      Time.Day ⟨ad + ((dateToDays Y m d - ad).toNat : Nat), false⟩ ∈ D ∧
      now.day < ad + ((dateToDays Y m d - ad).toNat : Nat)
    rw [e]
    simp only [Time.Month, Time.Day, hY2]
    exact ⟨hm, hd, by omega⟩
  obtain ⟨K, -, hK2, hK3⟩ := exists_first P _ (by omega) hk0
  obtain ⟨hKm, hKd, hKn⟩ := hK2
  refine ⟨ad + (K + 1 : Nat), by omega, hKn, hKm, hKd, ?_, ?_⟩
  · intro z hz1 hz2 hz3 hz4
    have := hK3 (z - ad).toNat (by omega) (by omega)
    have e : ad + ((z - ad).toNat : Nat) = z := by omega
    simp only [P, e] at this
    exact this ⟨hz4.1, hz4.2, hz2⟩
  · intro fuel hf
    rw [NextDate_monthly_months_eq Local fuel now _ date dtoks mtoks D M hnow hdate hFD hdt hFM
      hmt (fun x hx => by have := hD x hx; omega) hM,
      nextMonthly_months Local fuel _ _ D M hD hM hMne]
    have hsearch := stepUntil_seq
      (fun r => decide (r.Month ∈ M) && decide (r.Day ∈ D) &&
        Time.Before Local ⟨now.day, false⟩ r)
      (fun r => r.AddDate 0 0 1) K (fun k => ⟨ad + k, false⟩)
      (fun k => by
        show Time.AddDate ⟨ad + k, false⟩ 0 0 1 = ⟨ad + ((k + 1 : Nat) : Int), false⟩
        rw [AddDate_days]
        simp only [Nat.cast_add, Nat.cast_one, add_assoc])
      (by
        show (decide (Time.Month ⟨ad + (K + 1 : Nat), false⟩ ∈ M) &&
          decide (Time.Day ⟨ad + (K + 1 : Nat), false⟩ ∈ D) &&
          Time.Before Local ⟨now.day, false⟩ ⟨ad + (K + 1 : Nat), false⟩) = true
        rw [Before_utc]
        simp only [Bool.and_eq_true, decide_eq_true_eq]
        exact ⟨⟨hKm, hKd⟩, hKn⟩)
      (fun j hj1 hj2 => by
        show (decide (Time.Month ⟨ad + (j : Nat), false⟩ ∈ M) &&
          decide (Time.Day ⟨ad + (j : Nat), false⟩ ∈ D) &&
          Time.Before Local ⟨now.day, false⟩ ⟨ad + (j : Nat), false⟩) = false
        rw [Before_utc]
        have := hK3 j hj1 hj2
        simp only [P] at this
        rw [Bool.eq_false_iff]
        intro hc
        simp only [Bool.and_eq_true, decide_eq_true_eq] at hc
        exact this ⟨hc.1.1, hc.1.2, hc.2⟩)
      fuel (by omega)
    simp only [Nat.cast_zero, add_zero] at hsearch
    have hnb : Time.Before Local ⟨ad + (K + 1 : Nat), false⟩ ⟨now.day, false⟩ = false := by
      rw [Before_utc]
      simp only [decide_eq_false_iff_not]
      omega
    simp only [hsearch, hnb, Bool.false_eq_true, if_false]

theorem C6_witness :
    ∃ r : Int, (738954 : Int) < r ∧ (738959 : Int) < r ∧
      Time.Month ⟨r, false⟩ ∈ [(2 : Int), 8] ∧ Time.Day ⟨r, false⟩ ∈ [(5 : Int), 30] ∧
      (∀ z : Int, (738954 : Int) < z → (738959 : Int) < z → z < r →
        ¬ (Time.Month ⟨z, false⟩ ∈ [(2 : Int), 8] ∧ Time.Day ⟨z, false⟩ ∈ [(5 : Int), 30])) ∧
      ∀ fuel : Nat, r - (738954 : Int) ≤ fuel →
        NextDate Zone.utc fuel ⟨738959, false⟩ "20240310".toList
          ('m' :: ' ' :: (Join ',' ["5".toList, "30".toList] ++
            ' ' :: Join ',' ["2".toList, "8".toList])) =
          some (Res.ok (Time.Format ⟨r, false⟩)) :=
  C6_monthly_with_months Zone.utc ⟨738959, false⟩ ⟨738954, false⟩ "20240310".toList
    ["5".toList, "30".toList] ["2".toList, "8".toList] [5, 30] [2, 8] (by decide) (by decide)
    (List.Forall₂.cons (by decide) (List.Forall₂.cons (by decide) List.Forall₂.nil))
    (List.Forall₂.cons (by decide) (List.Forall₂.cons (by decide) List.Forall₂.nil))
    (by decide) (by decide) ⟨2, by decide, 5, by decide, 2024, by decide⟩

/-! ## Evaluations of the monthly rule -/

/-- Claim C5 at rule `m 5,25`, anchor 2024-03-01, today 2024-03-15: the call returns
20240405, although 2024-03-25 lies after today and after the anchor and its day of the
month is in the list.  The same rule with all twelve months written out returns
20240325. -/
theorem C5_skips_current_month :
    Parse "20240315".toList = some ⟨738959, false⟩ ∧
      NextDate Zone.utc 60 ⟨738959, false⟩ "20240301".toList "m 5,25".toList =
        some (Res.ok "20240405".toList) ∧
      Parse "20240325".toList = some ⟨738969, false⟩ ∧
      Time.Day ⟨738969, false⟩ = 25 ∧ Parse "20240405".toList = some ⟨738980, false⟩ ∧
      NextDate Zone.utc 60 ⟨738959, false⟩ "20240301".toList
        "m 5,25 1,2,3,4,5,6,7,8,9,10,11,12".toList = some (Res.ok "20240325".toList) := by
  decide

set_option maxRecDepth 100000 in
/-- Claim C7 at rule `m -1`, anchor and today both 2024-07-31 (a last day of the month):
the call returns 20250731, a year later, where the claim gives 20240831; and at rule
`m -1 3`, anchor 2024-03-10, today 2024-03-15, it returns 20250315, which is not the last
day of a month, where the claim gives 20240331. -/
theorem C7_last_day_misses :
    Parse "20240731".toList = some ⟨739097, false⟩ ∧
      NextDate Zone.utc 400 ⟨739097, false⟩ "20240731".toList "m -1".toList =
        some (Res.ok "20250731".toList) ∧
      Parse "20240315".toList = some ⟨738959, false⟩ ∧
      NextDate Zone.utc 400 ⟨738959, false⟩ "20240310".toList "m -1 3".toList =
        some (Res.ok "20250315".toList) := by
  decide

/-- No date is the 30th of February. -/
theorem not_feb_30 (r : Time) : ¬ (r.Month = 2 ∧ r.Day = 30) := by
  rintro ⟨hm, hd⟩
  obtain ⟨-, -, -, d2, -⟩ := civil_valid r.day
  simp only [Time.Month, Time.Day] at hm hd
  rw [hm, hd] at d2
  obtain ⟨L, hL, hL01, v1, v2, v3, v4, v5, v6, v7, v8, v9, v10, v11, v12, v13⟩ :=
    daysBefore_vals (civil r.day).year
  simp only [daysIn, Int.reduceAdd, v2, v3] at d2
  clear v1 v2 v3 v4 v5 v6 v7 v8 v9 v10 v11 v12 v13
  omega

/-- Claim C8 at rule `m -2`, anchor 2023-02-01, today 2023-02-10 (a February of 28 days):
`countMonthDay` answers 30, the month inferred is February, and the search for a 30th of
February never ends — whatever the fuel, the call does not return.  The claim gives
20230227. -/
theorem C8_nonleap_february (fuel : Nat) :
    NextDate Zone.utc fuel ⟨738560, false⟩ "20230201".toList "m -2".toList = none := by
  have hfront := NextDate_monthly_eq Zone.utc fuel ⟨738560, false⟩ ⟨738551, false⟩
    "20230201".toList ["-2".toList] [-2] (by decide) (by decide)
    (List.Forall₂.cons (by decide) List.Forall₂.nil) (by decide) (by decide)
  have htext : "m -2".toList = 'm' :: ' ' :: Join ',' ["-2".toList] := by decide
  rw [htext, hfront]
  have hcount : countMonthDay fuel [] ⟨738560, false⟩ ⟨738551, false⟩ (-2)
      (Time.Before Zone.utc ⟨738551, false⟩ ⟨738560, false⟩) = some 30 := by
    rfl
  have hdays : monthDaySet Zone.utc fuel [] ⟨738560, false⟩ ⟨738551, false⟩ [-2] =
      some (.ok [30]) := by
    simp only [monthDaySet, hcount]
    rfl
  have hmonths : monthsFromNow Zone.utc ⟨738560, false⟩ [30] = [2] := by decide
  have hbefore : Time.Before Zone.utc ⟨738551, false⟩ ⟨738560, false⟩ = true := by decide
  have hnb : Time.Before Zone.utc ⟨738560, false⟩ ⟨738551, false⟩ = false := by decide
  have hnever := stepUntil_never
    (fun r => decide (r.Month ∈ [(2 : Int)]) && decide (r.Day ∈ [(30 : Int)]) &&
      Time.Before Zone.utc ⟨738560, false⟩ r)
    (fun r => r.AddDate 0 0 1)
    (fun r => by
      rw [Bool.eq_false_iff]
      intro hc
      simp only [Bool.and_eq_true, decide_eq_true_eq, List.mem_singleton] at hc
      exact not_feb_30 r ⟨hc.1.1, hc.1.2⟩)
    fuel ⟨738551, false⟩
  simp only [nextMonthly, monthSet, hdays, hbefore, true_or, and_self, if_true, hmonths,
    hnb, Bool.false_eq_true, and_false, if_false, hnever]

/-! ## Initial date assignment, validation and completion -/

/-- Claim C11 at a process five hours west of UTC, at 20:00 local time on 2024-03-15, for
a task dated 2024-03-16 (tomorrow) without a rule: `DateToAdd` fails with the
date-in-past error; the reference keeps the date.  With `time.Local` at UTC the same call
keeps the date. -/
theorem C11_tomorrow_rejected :
    Parse "20240316".toList = some ⟨738959 + 1, false⟩ ∧
      DateToAdd (Zone.fixed (-18000) (by decide)) 10 ⟨738959, 72000, by decide⟩
        ⟨[], "t".toList, "20240316".toList, [], []⟩ = some (Res.err Err.dateInPast) ∧
      DateToAdd Zone.utc 10 ⟨738959, 72000, by decide⟩
        ⟨[], "t".toList, "20240316".toList, [], []⟩ = some (Res.ok "20240316".toList) := by
  decide

/-- Claim C12 at today 2024-03-15: for a task dated 2023-03-15 with rule `y`, and for a
task dated 2024-03-12 with rule `d 3`, `CompleteRequest` computes 20240315, which is today
and not a later date; `DateToAdd` stores it. -/
theorem C12_result_is_today :
    Time.Format (Clock.toTime ⟨738959, 43200, by decide⟩) = "20240315".toList ∧
      Task.CompleteRequest Zone.utc 10 ⟨738959, 43200, by decide⟩
        ⟨[], "t".toList, "20230315".toList, "y".toList, []⟩ =
        some (Res.ok "20240315".toList) ∧
      Task.CompleteRequest Zone.utc 10 ⟨738959, 43200, by decide⟩
        ⟨[], "t".toList, "20240312".toList, "d 3".toList, []⟩ =
        some (Res.ok "20240315".toList) ∧
      DateToAdd Zone.utc 10 ⟨738959, 43200, by decide⟩
        ⟨[], "t".toList, "20230315".toList, "y".toList, []⟩ =
        some (Res.ok "20240315".toList) := by
  decide

/-- Claim C13 at a process five hours west of UTC, at 20:00 local time on 2024-03-15:
`CheckDate` rejects the date 2024-03-16, which parses and is after today, with the
date-in-past error. -/
theorem C13_tomorrow_in_past :
    Time.Format (Clock.toTime ⟨738959, 72000, by decide⟩) = "20240315".toList ∧
      Task.CheckDate (Zone.fixed (-18000) (by decide)) ⟨738959, 72000, by decide⟩
        ⟨[], "t".toList, "20240316".toList, [], []⟩ = Res.err Err.dateInPast ∧
      Task.CheckDate Zone.utc ⟨738959, 72000, by decide⟩
        ⟨[], "t".toList, "20240316".toList, [], []⟩ = Res.ok "20240316".toList := by
  decide

/-- Claim C15 at today 2024-03-15 for a stored task dated 2023-03-15 with rule `y`:
`NextDate` answers 20240315, which is today, and `Done` then reads `rptSlc[1]` of the
one-element slice and panics; nothing is updated. -/
theorem C15_yearly_done_panics :
    NextDate Zone.utc 10 ⟨738959, true⟩ "20230315".toList "y".toList =
        some (Res.ok "20240315".toList) ∧
      Time.Format ⟨738959, true⟩ = "20240315".toList ∧
      Done Zone.utc 10 ⟨738959, true⟩
        (.ok ⟨"7".toList, "t".toList, "20230315".toList, "y".toList, []⟩) =
        some DoneResult.panic := by
  decide

/-- Claim C17 at rule `m 0`, anchor 2024-03-10, today 2024-03-15: the day 0 passes the
range check of line 205 and the call returns 20240401 without an error. -/
theorem C17_day_zero_accepted :
    NextDate Zone.utc 60 ⟨738959, false⟩ "20240310".toList "m 0".toList =
      some (Res.ok "20240401".toList) := by
  decide

/-- Claim C19 at a title of two spaces: `CheckTask` returns no error. -/
theorem C19_two_spaces_accepted :
    Task.CheckTask ⟨[], "  ".toList, [], [], []⟩ = none ∧
      Task.CheckTask ⟨[], " ".toList, [], [], []⟩ = some Err.missingTitle := by
  decide

/-- Claim C14.  For a task that `GetTask` has loaded (its identifier is numeric text):
`Done` deletes when the stored rule is empty; with a non-empty rule it never deletes; and
when `NextDate` returns an error on a non-empty rule, `Done` returns that error and
neither updates nor deletes. -/
theorem C14_done_delete_iff_no_rule (Local : Zone) (fuel : Nat) (now : Time) (task : Task)
    (hid : (Atoi task.ID).2 = none) :
    (task.Repeat = [] →
      Done Local fuel now (.ok task) = some (DoneResult.deleted (Atoi task.ID).1)) ∧
    (task.Repeat ≠ [] → ∀ id, Done Local fuel now (.ok task) ≠ some (DoneResult.deleted id)) ∧
    (task.Repeat ≠ [] → ∀ e, NextDate Local fuel now task.Date task.Repeat = some (Res.err e) →
      Done Local fuel now (.ok task) = some (DoneResult.failed e)) := by
  refine ⟨?_, ?_, ?_⟩
  · intro h
    simp only [Done, h, ne_eq, not_true_eq_false, if_false, hid]
  · intro h id
    simp only [Done, ne_eq, h, not_false_eq_true, if_true]
    cases hN : NextDate Local fuel now task.Date task.Repeat with
    | none => simp
    | some r =>
      cases r with
      | err e => simp
      | panic => simp
      | ok nextDate =>
        simp only
        split_ifs
        · cases hP : Parse nextDate with
          | none => simp
          | some date =>
            simp only
            cases hS : (Split ' ' task.Repeat).drop 1 with
            | nil => simp
            | cons tok rest =>
              simp only
              cases hA : (Atoi tok).2 with
              | none => simp
              | some e => simp
        · simp
  · intro h e hN
    simp only [Done, ne_eq, h, not_false_eq_true, if_true, hN]

theorem C14_witness :
    ((⟨"7".toList, "t".toList, "20240312".toList, "d 500".toList, []⟩ : Task).Repeat = [] →
      Done Zone.utc 5 ⟨738959, true⟩
        (.ok ⟨"7".toList, "t".toList, "20240312".toList, "d 500".toList, []⟩) =
        some (DoneResult.deleted
          (Atoi (⟨"7".toList, "t".toList, "20240312".toList, "d 500".toList, []⟩ : Task).ID).1)) ∧
    ((⟨"7".toList, "t".toList, "20240312".toList, "d 500".toList, []⟩ : Task).Repeat ≠ [] →
      ∀ id, Done Zone.utc 5 ⟨738959, true⟩
        (.ok ⟨"7".toList, "t".toList, "20240312".toList, "d 500".toList, []⟩) ≠
        some (DoneResult.deleted id)) ∧
    ((⟨"7".toList, "t".toList, "20240312".toList, "d 500".toList, []⟩ : Task).Repeat ≠ [] →
      ∀ e, NextDate Zone.utc 5 ⟨738959, true⟩
          (⟨"7".toList, "t".toList, "20240312".toList, "d 500".toList, []⟩ : Task).Date
          (⟨"7".toList, "t".toList, "20240312".toList, "d 500".toList, []⟩ : Task).Repeat =
          some (Res.err e) →
        Done Zone.utc 5 ⟨738959, true⟩
          (.ok ⟨"7".toList, "t".toList, "20240312".toList, "d 500".toList, []⟩) =
          some (DoneResult.failed e)) :=
  C14_done_delete_iff_no_rule Zone.utc 5 ⟨738959, true⟩
    ⟨"7".toList, "t".toList, "20240312".toList, "d 500".toList, []⟩ (by decide)

/-- A loop whose condition holds and whose step does not move never ends. -/
theorem loopWhile_stuck (cond : Time → Bool) (step : Time → Time) (r : Time)
    (hc : cond r = true) (hs : step r = r) : ∀ fuel, loopWhile cond step fuel r = none := by
  intro fuel
  induction fuel with
  | zero => simp only [loopWhile, hc, if_true]
  | succ fuel ih => simp only [loopWhile, hc, if_true, hs, ih]

/-- Claim C16 at today 2024-03-15.  The rule `d 0` with anchor 2024-03-15 returns 20240315
without an error; with anchor 2024-03-10 its loop adds zero days for ever and the call
does not return, whatever the fuel; the rule `d -5` with anchor 2024-03-15 returns
20240310 without an error. -/
theorem C16_interval_below_one (fuel : Nat) :
    NextDate Zone.utc fuel ⟨738959, false⟩ "20240315".toList "d 0".toList =
        some (Res.ok "20240315".toList) ∧
      NextDate Zone.utc fuel ⟨738959, false⟩ "20240310".toList "d 0".toList = none ∧
      NextDate Zone.utc fuel ⟨738959, false⟩ "20240315".toList "d -5".toList =
        some (Res.ok "20240310".toList) := by
  have h0 : "d 0".toList = 'd' :: ' ' :: "0".toList := by decide
  have h5 : "d -5".toList = 'd' :: ' ' :: "-5".toList := by decide
  refine ⟨?_, ?_, ?_⟩
  · rw [h0, NextDate_daily_eq Zone.utc fuel ⟨738959, false⟩ ⟨738959, false⟩ "20240315".toList
      "0".toList 0 (by decide) (by decide) (by decide) (by decide), nextDaily_eq,
      if_neg (show ¬ ((0 : Int) = 1) by decide),
      if_pos (show (738959 : Int) = (⟨738959, false⟩ : Time).day from rfl)]
    decide
  · rw [h0, NextDate_daily_eq Zone.utc fuel ⟨738959, false⟩ ⟨738954, false⟩ "20240310".toList
      "0".toList 0 (by decide) (by decide) (by decide) (by decide), nextDaily_eq]
    have hstuck := loopWhile_stuck (fun r => r.Before Zone.utc ⟨738959, true⟩)
      (fun r => r.AddDate 0 0 0) ⟨738954, false⟩ (by decide) (by decide) fuel
    simp only [show ¬ ((0 : Int) = 1) by decide, show ¬ ((738954 : Int) = 738959) by decide,
      show ¬ ((738959 : Int) < 738954) by decide, if_false, hstuck, Option.map_none']
  · rw [h5, NextDate_daily_eq Zone.utc fuel ⟨738959, false⟩ ⟨738959, false⟩ "20240315".toList
      "-5".toList (-5) (by decide) (by decide) (by decide) (by decide), nextDaily_eq,
      if_neg (show ¬ ((-5 : Int) = 1) by decide),
      if_pos (show (738959 : Int) = (⟨738959, false⟩ : Time).day from rfl)]
    decide

/-- The front end of `NextDate` on the bare rule `w`. -/
theorem NextDate_bare_weekly (Local : Zone) (fuel : Nat) (now a : Time) (date : Str)
    (hnow : 0 ≤ now.Year ∧ now.Year ≤ 9999) (hdate : Parse date = some a) :
    NextDate Local fuel now date ['w'] = nextWeekly Local fuel ⟨now.day, false⟩ a [] := by
  have hsp : Split ' ' ['w'] = [['w']] := by decide
  have hcount : ¬ (3 < 1 ∨ ((['w'] : Str) = ['y'] ∧ 1 < 1) ∨ ((['w'] : Str) = ['d'] ∧ 1 = 1) ∨
      ((['w'] : Str) = ['d'] ∧ 1 < 1) ∨ ((['w'] : Str) = ['w'] ∧ 2 < 1)) := by decide
  have r1 : ¬ ((['w'] : Str) = []) := by decide
  have r2 : ¬ ((['w'] : Str) = ['d']) := by decide
  have r3 : ¬ ((['w'] : Str) = ['y']) := by decide
  simp only [NextDate, hsp, List.headD_cons, List.length_cons, List.length_nil,
    zero_add, if_neg hcount, lt_self_iff_false, if_false, Parse_Format now hnow.1 hnow.2, hdate]
  simp only [r1, r2, r3, if_false, if_true]
  rfl

/-- The front end of `NextDate` on the bare rule `m`. -/
theorem NextDate_bare_monthly (Local : Zone) (fuel : Nat) (now a : Time) (date : Str)
    (hnow : 0 ≤ now.Year ∧ now.Year ≤ 9999) (hdate : Parse date = some a) :
    NextDate Local fuel now date ['m'] = nextMonthly Local fuel ⟨now.day, false⟩ a [] [] := by
  have hsp : Split ' ' ['m'] = [['m']] := by decide
  have hcount : ¬ (3 < 1 ∨ ((['m'] : Str) = ['y'] ∧ 1 < 1) ∨ ((['m'] : Str) = ['d'] ∧ 1 = 1) ∨
      ((['m'] : Str) = ['d'] ∧ 1 < 1) ∨ ((['m'] : Str) = ['w'] ∧ 2 < 1)) := by decide
  have r1 : ¬ ((['m'] : Str) = []) := by decide
  have r2 : ¬ ((['m'] : Str) = ['d']) := by decide
  have r3 : ¬ ((['m'] : Str) = ['y']) := by decide
  have r4 : ¬ ((['m'] : Str) = ['w']) := by decide
  simp only [NextDate, hsp, List.headD_cons, List.length_cons, List.length_nil,
    zero_add, if_neg hcount, lt_self_iff_false, if_false, Parse_Format now hnow.1 hnow.2, hdate]
  simp only [r1, r2, r3, r4, if_false, if_true]
  rfl

/-- Claim C18 at today 2024-03-15.  `CheckTask` accepts the bare rule `m`; `NextDate` on
the bare rule `w` searches for a weekday of an empty set and does not return, whatever the
fuel; on the bare rule `m` it panics at `daysInt[0]` when the anchor is after today and
does not return when it is not.  Neither call gives an error. -/
theorem C18_bare_rules_not_rejected (fuel : Nat) :
    Task.CheckTask ⟨[], "t".toList, [], "m".toList, []⟩ = none ∧
      Task.CheckTask ⟨[], "t".toList, [], "w".toList, []⟩ = some Err.badRepeat ∧
      NextDate Zone.utc fuel ⟨738959, false⟩ "20240310".toList "w".toList = none ∧
      NextDate Zone.utc fuel ⟨738959, false⟩ "20240320".toList "m".toList = some Res.panic ∧
      NextDate Zone.utc fuel ⟨738959, false⟩ "20240310".toList "m".toList = none := by
  refine ⟨by decide, by decide, ?_, ?_, ?_⟩
  · rw [show "w".toList = ['w'] by decide,
      NextDate_bare_weekly Zone.utc fuel ⟨738959, false⟩ ⟨738954, false⟩ "20240310".toList
        (by decide) (by decide)]
    have hnever := stepUntil_never (fun r => decide (r.Weekday ∈ ([] : List Int)))
      (fun r => r.AddDate 0 0 1) (fun r => by simp) fuel
    simp only [nextWeekly, weekdaySet, hnever]
  · rw [show "m".toList = ['m'] by decide,
      NextDate_bare_monthly Zone.utc fuel ⟨738959, false⟩ ⟨738964, false⟩ "20240320".toList
        (by decide) (by decide)]
    rfl
  · rw [show "m".toList = ['m'] by decide,
      NextDate_bare_monthly Zone.utc fuel ⟨738959, false⟩ ⟨738954, false⟩ "20240310".toList
        (by decide) (by decide)]
    have hnever := stepUntil_never
      (fun r => decide (r.Month ∈ [(3 : Int)]) && decide (r.Day ∈ ([] : List Int)) &&
        Time.Before Zone.utc ⟨738959, false⟩ r)
      (fun r => r.AddDate 0 0 1) (fun r => by simp) fuel ⟨738954, false⟩
    have hbefore : Time.Before Zone.utc ⟨738954, false⟩ ⟨738959, false⟩ = true := by decide
    have hnb : Time.Before Zone.utc ⟨738959, false⟩ ⟨738954, false⟩ = false := by decide
    have hmonths : monthsFromNow Zone.utc ⟨738959, false⟩ [] = [3] := by decide
    simp only [nextMonthly, monthSet, monthDaySet, hbefore, true_or, and_self, if_true, hmonths,
      hnb, Bool.false_eq_true, and_false, if_false, hnever]

/-! ## Length of the monthly search -/

theorem daysBefore_succ_le (y m : Int) (h1 : 1 ≤ m) (h2 : m ≤ 12) :
    daysBefore y (m + 1) ≤ (if isLeap y then 366 else 365) := by
  obtain ⟨L, hL, hL01, v1, v2, v3, v4, v5, v6, v7, v8, v9, v10, v11, v12, v13⟩ :=
    daysBefore_vals y
  have hl : (if isLeap y = true then (366 : Int) else 365) = 365 + L := by
    rw [hL]; split_ifs <;> rfl
  rw [hl]
  have hcases : m = 1 ∨ m = 2 ∨ m = 3 ∨ m = 4 ∨ m = 5 ∨ m = 6 ∨ m = 7 ∨ m = 8 ∨ m = 9 ∨ m = 10
      ∨ m = 11 ∨ m = 12 := by omega
  rcases hcases with h | h | h | h | h | h | h | h | h | h | h | h <;> subst h <;>
  simp only [Int.reduceAdd, v1, v2, v3, v4, v5, v6, v7, v8, v9, v10, v11, v12, v13] <;>
  clear v1 v2 v3 v4 v5 v6 v7 v8 v9 v10 v11 v12 v13 <;> omega

/-- A month and day that exist in every year occur within the 366 days after any day. -/
theorem exists_date_within_year (B m d : Int) (h1 : 1 ≤ m) (h2 : m ≤ 12) (hd : 1 ≤ d)
    (hv : ∀ y, d ≤ daysIn m y) :
    ∃ Y, B < dateToDays Y m d ∧ dateToDays Y m d ≤ B + 366 ∧
      civil (dateToDays Y m d) = ⟨Y, m, d⟩ := by
  obtain ⟨hy1, hy2⟩ := yearOf_spec B
  have hs := daysBeforeYear_succ (yearOf B)
  have hstep := dateToDays_year_step (yearOf B) m d h1 h2
  have hle := daysBefore_succ_le (yearOf B) m h1 h2
  have hnn := daysBefore_nonneg (yearOf B + 1) m h1 h2
  have hd0 := hv (yearOf B)
  simp only [daysIn] at hd0
  have e0 := dateToDays_norm (yearOf B) m d h1 h2
  have e1 := dateToDays_norm (yearOf B + 1) m d h1 h2
  by_cases hc : B < dateToDays (yearOf B) m d
  · refine ⟨yearOf B, hc, ?_, civil_dateToDays _ _ _ h1 h2 hd (hv _)⟩
    generalize daysBefore (yearOf B) (m + 1) = A1 at *
    generalize daysBefore (yearOf B) m = A0 at *
    generalize daysBeforeYear (yearOf B + 1) = Y1 at *
    generalize daysBeforeYear (yearOf B) = Y0 at *
    generalize dateToDays (yearOf B) m d = X at *
    split_ifs at hs hle <;> omega
  · refine ⟨yearOf B + 1, ?_, ?_, civil_dateToDays _ _ _ h1 h2 hd (hv _)⟩
    · generalize daysBefore (yearOf B + 1) m = A at *
      generalize daysBeforeYear (yearOf B + 1) = Y1 at *
      generalize dateToDays (yearOf B + 1) m d = X at *
      omega
    · generalize dateToDays (yearOf B + 1) m d = X at *
      generalize dateToDays (yearOf B) m d = X0 at *
      omega

/-- A search along a sequence `f` does not return while the fuel ends before the first
element that meets the condition. -/
theorem stepUntil_short (cond : Time → Bool) (step : Time → Time) :
    ∀ (fuel : Nat) (f : Nat → Time), (∀ k, step (f k) = f (k + 1)) →
      (∀ j, 1 ≤ j → j ≤ fuel → cond (f j) = false) →
      stepUntil cond step fuel (f 0) = none := by
  intro fuel
  induction fuel with
  | zero => intro f _ _; rfl
  | succ fuel ih =>
    intro f hstep hlt
    have h1 := hlt 1 (by omega) (by omega)
    simp only [stepUntil, hstep, h1, Bool.false_eq_true, if_false]
    exact ih (fun k => f (k + 1)) (fun k => hstep (k + 1))
      (fun j hj1 hj2 => hlt (j + 1) (by omega) (by omega))

/-- The search of the monthly case from the anchor, given a later day that meets the
condition: it returns the first such day, which is not after the given one. -/
theorem monthly_search (Local : Zone) (nowd ad : Int) (D M : List Int) (k0 : Nat) (h1 : 1 ≤ k0)
    (hm : Time.Month ⟨ad + k0, false⟩ ∈ M) (hd : Time.Day ⟨ad + k0, false⟩ ∈ D)
    (hn : nowd < ad + k0) :
    ∃ K : Nat, K + 1 ≤ k0 ∧ nowd < ad + (K + 1 : Nat) ∧
      (∀ fuel : Nat, K + 1 ≤ fuel →
        stepUntil
          (fun r => decide (r.Month ∈ M) && decide (r.Day ∈ D) &&
            Time.Before Local ⟨nowd, false⟩ r)
          (fun r => r.AddDate 0 0 1) fuel ⟨ad, false⟩ = some ⟨ad + (K + 1 : Nat), false⟩) ∧
      (∀ fuel : Nat, fuel ≤ K →
        stepUntil
          (fun r => decide (r.Month ∈ M) && decide (r.Day ∈ D) &&
            Time.Before Local ⟨nowd, false⟩ r)
          (fun r => r.AddDate 0 0 1) fuel ⟨ad, false⟩ = none) := by
  let P : Nat → Prop := fun j =>
    Time.Month ⟨ad + j, false⟩ ∈ M ∧ Time.Day ⟨ad + j, false⟩ ∈ D ∧ nowd < ad + j
  have hk0 : P k0 := ⟨hm, hd, hn⟩
  obtain ⟨K, hK1, hK2, hK3⟩ := exists_first P k0 h1 hk0
  obtain ⟨hKm, hKd, hKn⟩ := hK2
  have hstep : ∀ k : Nat, (fun r : Time => r.AddDate 0 0 1) ((fun k : Nat => (⟨ad + k, false⟩ : Time)) k)
      = (fun k : Nat => (⟨ad + k, false⟩ : Time)) (k + 1) := by
    intro k
    show Time.AddDate ⟨ad + k, false⟩ 0 0 1 = ⟨ad + ((k + 1 : Nat) : Int), false⟩
    rw [AddDate_days]
    simp only [Nat.cast_add, Nat.cast_one, add_assoc]
  have hfalse : ∀ j : Nat, 1 ≤ j → j ≤ K →
      (fun r : Time => decide (r.Month ∈ M) && decide (r.Day ∈ D) &&
        Time.Before Local ⟨nowd, false⟩ r) ((fun k : Nat => (⟨ad + k, false⟩ : Time)) j) = false := by
    intro j hj1 hj2
    show (decide (Time.Month ⟨ad + (j : Nat), false⟩ ∈ M) &&
      decide (Time.Day ⟨ad + (j : Nat), false⟩ ∈ D) &&
      Time.Before Local ⟨nowd, false⟩ ⟨ad + (j : Nat), false⟩) = false
    rw [Before_utc]
    have := hK3 j hj1 hj2
    simp only [P] at this
    rw [Bool.eq_false_iff]
    intro hc
    simp only [Bool.and_eq_true, decide_eq_true_eq] at hc
    exact this ⟨hc.1.1, hc.1.2, hc.2⟩
  refine ⟨K, hK1, hKn, ?_, ?_⟩
  swap
  · intro fuel hf
    have hshort := stepUntil_short
      (fun r => decide (r.Month ∈ M) && decide (r.Day ∈ D) &&
        Time.Before Local ⟨nowd, false⟩ r)
      (fun r => r.AddDate 0 0 1) fuel (fun k => ⟨ad + k, false⟩) hstep
      (fun j hj1 hj2 => hfalse j hj1 (by omega))
    simp only [Nat.cast_zero, add_zero] at hshort
    exact hshort
  intro fuel hf
  have hsearch := stepUntil_seq
    (fun r => decide (r.Month ∈ M) && decide (r.Day ∈ D) &&
      Time.Before Local ⟨nowd, false⟩ r)
    (fun r => r.AddDate 0 0 1) K (fun k => ⟨ad + k, false⟩)
    (fun k => by
      show Time.AddDate ⟨ad + k, false⟩ 0 0 1 = ⟨ad + ((k + 1 : Nat) : Int), false⟩
      rw [AddDate_days]
      simp only [Nat.cast_add, Nat.cast_one, add_assoc])
    (by
      show (decide (Time.Month ⟨ad + (K + 1 : Nat), false⟩ ∈ M) &&
        decide (Time.Day ⟨ad + (K + 1 : Nat), false⟩ ∈ D) &&
        Time.Before Local ⟨nowd, false⟩ ⟨ad + (K + 1 : Nat), false⟩) = true
      rw [Before_utc]
      simp only [Bool.and_eq_true, decide_eq_true_eq]
      exact ⟨⟨hKm, hKd⟩, hKn⟩)
    (fun j hj1 hj2 => by
      show (decide (Time.Month ⟨ad + (j : Nat), false⟩ ∈ M) &&
        decide (Time.Day ⟨ad + (j : Nat), false⟩ ∈ D) &&
        Time.Before Local ⟨nowd, false⟩ ⟨ad + (j : Nat), false⟩) = false
      rw [Before_utc]
      have := hK3 j hj1 hj2
      simp only [P] at this
      rw [Bool.eq_false_iff]
      intro hc
      simp only [Bool.and_eq_true, decide_eq_true_eq] at hc
      exact this ⟨hc.1.1, hc.1.2, hc.2⟩)
    fuel hf
  simp only [Nat.cast_zero, add_zero] at hsearch
  exact hsearch

/-- Claim C20, as amended.  For a monthly rule `m D M` with days in 1..31 and a non-empty
list of months in 1..12 in which some month and day exist in every year, the day-by-day
search of `NextDate` ends at a date `r` that lies at most 366 days after
`max(anchor, today)`; it starts at the anchor and takes `r - anchor` one-day steps. -/
theorem C20_monthly_search_ends (Local : Zone) (now a : Time) (date : Str)
    (dtoks mtoks : List Str) (D M : List Int) (hnow : 0 ≤ now.Year ∧ now.Year ≤ 9999)
    (hdate : Parse date = some a)
    (hFD : List.Forall₂ (fun t v => Atoi t = (v, none)) dtoks D)
    (hFM : List.Forall₂ (fun t v => Atoi t = (v, none)) mtoks M)
    (hD : ∀ v ∈ D, 1 ≤ v ∧ v ≤ 31) (hM : ∀ v ∈ M, 1 ≤ v ∧ v ≤ 12)
    (hex : ∃ m ∈ M, ∃ d ∈ D, ∀ y, d ≤ daysIn m y) :
    ∃ r : Int, max a.day now.day < r ∧ r ≤ max a.day now.day + 366 ∧
      (∀ fuel : Nat, r - a.day ≤ fuel →
        NextDate Local fuel now date
          ('m' :: ' ' :: (Join ',' dtoks ++ ' ' :: Join ',' mtoks)) =
          some (Res.ok (Time.Format ⟨r, false⟩))) ∧
      (∀ fuel : Nat, (fuel : Int) < r - a.day →
        NextDate Local fuel now date
          ('m' :: ' ' :: (Join ',' dtoks ++ ' ' :: Join ',' mtoks)) = none) := by
  obtain ⟨ad, al⟩ := a
  obtain ⟨hal, -, -⟩ := Parse_utc date _ hdate
  simp only at hal
  subst hal
  simp only
  obtain ⟨m, hm, d, hd, hy⟩ := hex
  have hMne : M ≠ [] := List.ne_nil_of_mem hm
  have hDne : D ≠ [] := List.ne_nil_of_mem hd
  have hdt : dtoks ≠ [] := by
    intro e; subst e; cases hFD; exact hDne rfl
  have hmt : mtoks ≠ [] := by
    intro e; subst e; cases hFM; exact hMne rfl
  obtain ⟨Y, hY1, hY2, hY3⟩ := exists_date_within_year (max ad now.day) m d (hM m hm).1
    (hM m hm).2 (hD d hd).1 hy
  have e : ad + ((dateToDays Y m d - ad).toNat : Nat) = dateToDays Y m d := by omega
  obtain ⟨K, hK1, hKn, hKs, hKshort⟩ := monthly_search Local now.day ad D M
    (dateToDays Y m d - ad).toNat (by omega)
    (by rw [e]; simp only [Time.Month, hY3]; exact hm)
    (by rw [e]; simp only [Time.Day, hY3]; exact hd)
    (by rw [e]; omega)
  have hfront : ∀ fuel : Nat,
      NextDate Local fuel now date ('m' :: ' ' :: (Join ',' dtoks ++ ' ' :: Join ',' mtoks)) =
        match stepUntil
            (fun r => decide (r.Month ∈ M) && decide (r.Day ∈ D) &&
              Time.Before Local ⟨now.day, false⟩ r)
            (fun r => r.AddDate 0 0 1) fuel ⟨ad, false⟩ with
        | none => none
        | some r =>
          if r.Before Local ⟨now.day, false⟩ then some (Res.err Err.pastResult)
          else some (Res.ok r.Format) := by
    intro fuel
    rw [NextDate_monthly_months_eq Local fuel now _ date dtoks mtoks D M hnow hdate hFD hdt hFM
      hmt (fun x hx => by have := hD x hx; omega) hM,
      nextMonthly_months Local fuel _ _ D M hD hM hMne]
  refine ⟨ad + (K + 1 : Nat), by omega, by omega, ?_, ?_⟩
  · intro fuel hf
    have hnb : Time.Before Local ⟨ad + (K + 1 : Nat), false⟩ ⟨now.day, false⟩ = false := by
      rw [Before_utc]
      simp only [decide_eq_false_iff_not]
      omega
    rw [hfront fuel, hKs fuel (by omega)]
    simp only [hnb, Bool.false_eq_true, if_false]
  · intro fuel hf
    rw [hfront fuel, hKshort fuel (by omega)]

theorem C20_witness :
    ∃ r : Int, max (738954 : Int) 738959 < r ∧ r ≤ max (738954 : Int) 738959 + 366 ∧
      (∀ fuel : Nat, r - (738954 : Int) ≤ fuel →
        NextDate Zone.utc fuel ⟨738959, false⟩ "20240310".toList
          ('m' :: ' ' :: (Join ',' ["5".toList, "30".toList] ++
            ' ' :: Join ',' ["2".toList, "8".toList])) =
          some (Res.ok (Time.Format ⟨r, false⟩))) ∧
      (∀ fuel : Nat, (fuel : Int) < r - (738954 : Int) →
        NextDate Zone.utc fuel ⟨738959, false⟩ "20240310".toList
          ('m' :: ' ' :: (Join ',' ["5".toList, "30".toList] ++
            ' ' :: Join ',' ["2".toList, "8".toList])) = none) :=
  C20_monthly_search_ends Zone.utc ⟨738959, false⟩ ⟨738954, false⟩ "20240310".toList
    ["5".toList, "30".toList] ["2".toList, "8".toList] [5, 30] [2, 8] (by decide) (by decide)
    (List.Forall₂.cons (by decide) (List.Forall₂.cons (by decide) List.Forall₂.nil))
    (List.Forall₂.cons (by decide) (List.Forall₂.cons (by decide) List.Forall₂.nil))
    (by decide) (by decide)
    ⟨8, by decide, 5, by decide, fun y =>
      daysIn_every_year 2024 y 8 5 (by decide) (by decide) (by decide) (by decide)⟩

set_option maxRecDepth 100000 in
/-- Claim C20 fails.  Today is 2024-03-15.  With rule `m 5 3` and anchor 2023-01-01 the
search has not returned after 366 steps (it returns 20250305 after 794 steps, because it
starts at the anchor); with rule `m 29 2` and anchor 2024-03-15 it has not returned after
366 steps either (the next 29 February is in 2028). -/
theorem C20_counterexample :
    NextDate Zone.utc 366 ⟨738959, false⟩ "20230101".toList "m 5 3".toList = none ∧
      NextDate Zone.utc 794 ⟨738959, false⟩ "20230101".toList "m 5 3".toList =
        some (Res.ok "20250305".toList) ∧
      NextDate Zone.utc 366 ⟨738959, false⟩ "20240315".toList "m 29 2".toList = none := by
  decide

/-! ## The last day of the month -/

theorem daysIn_bounds (m y : Int) (h1 : 1 ≤ m) (h2 : m ≤ 12) :
    28 ≤ daysIn m y ∧ daysIn m y ≤ 31 := by
  obtain ⟨L, hL, hL01, v1, v2, v3, v4, v5, v6, v7, v8, v9, v10, v11, v12, v13⟩ :=
    daysBefore_vals y
  simp only [daysIn]
  have hcases : m = 1 ∨ m = 2 ∨ m = 3 ∨ m = 4 ∨ m = 5 ∨ m = 6 ∨ m = 7 ∨ m = 8 ∨ m = 9 ∨ m = 10
      ∨ m = 11 ∨ m = 12 := by omega
  rcases hcases with h | h | h | h | h | h | h | h | h | h | h | h <;> subst h <;>
  simp only [Int.reduceAdd, v1, v2, v3, v4, v5, v6, v7, v8, v9, v10, v11, v12, v13] <;>
  clear v1 v2 v3 v4 v5 v6 v7 v8 v9 v10 v11 v12 v13 <;> omega

/-- February has 29 days in a leap year and 28 otherwise. -/
theorem daysIn_february (y : Int) : daysIn 2 y = if isLeap y then 29 else 28 := by
  obtain ⟨L, hL, hL01, v1, v2, v3, v4, v5, v6, v7, v8, v9, v10, v11, v12, v13⟩ :=
    daysBefore_vals y
  simp only [daysIn, Int.reduceAdd, v2, v3]
  clear v1 v2 v3 v4 v5 v6 v7 v8 v9 v10 v11 v12 v13
  rw [hL]
  split_ifs <;> rfl

/-- Walking on within the month: `j` days after day `d` of a month is day `d + j` of it. -/
theorem civil_add_in_month (n j : Int) (h0 : 0 ≤ j)
    (h1 : (civil n).day + j ≤ daysIn (civil n).month (civil n).year) :
    civil (n + j) = ⟨(civil n).year, (civil n).month, (civil n).day + j⟩ := by
  obtain ⟨m1, m2, d1, d2, hday⟩ := civil_valid n
  have e : n + j = dateToDays (civil n).year (civil n).month ((civil n).day + j) := by
    rw [dateToDays_add_day, hday]
  rw [e]
  exact civil_dateToDays _ _ _ m1 m2 (by omega) h1

/-- The day after the last day of a month lies in another month. -/
theorem civil_next_month (n : Int) :
    (civil (n + (daysIn (civil n).month (civil n).year - (civil n).day) + 1)).month ≠
      (civil n).month := by
  obtain ⟨m1, m2, d1, d2, hday⟩ := civil_valid n
  generalize hc : civil n = c at *
  obtain ⟨y, m, d⟩ := c
  simp only at m1 m2 d1 d2 hday ⊢
  have hn : n = daysBeforeYear y + daysBefore y m + d - 1 := by
    rw [← hday, dateToDays_norm _ _ _ m1 m2]
  have hF : n + (daysIn m y - d) + 1 = daysBeforeYear y + daysBefore y (m + 1) := by
    simp only [daysIn] at *
    generalize daysBefore y (m + 1) = A at *
    generalize daysBefore y m = B at *
    omega
  rw [hF]
  by_cases h12 : m = 12
  · subst h12
    obtain ⟨L, hL, hL01, v1, v2, v3, v4, v5, v6, v7, v8, v9, v10, v11, v12, v13⟩ :=
      daysBefore_vals y
    obtain ⟨L', hL', hL01', w1, w2, w3, w4, w5, w6, w7, w8, w9, w10, w11, w12, w13⟩ :=
      daysBefore_vals (y + 1)
    have hs := daysBeforeYear_succ y
    have hl : (if isLeap y = true then (366 : Int) else 365) = 365 + L := by
      rw [hL]; split_ifs <;> rfl
    rw [hl] at hs
    have e : daysBeforeYear y + daysBefore y (12 + 1) = dateToDays (y + 1) 1 1 := by
      rw [dateToDays_norm _ _ _ (by decide) (by decide), w1]
      simp only [Int.reduceAdd, v13]
      clear v1 v2 v3 v4 v5 v6 v7 v8 v9 v10 v11 v12 v13 w1 w2 w3 w4 w5 w6 w7 w8 w9 w10 w11 w12 w13
      omega
    rw [e, civil_dateToDays (y + 1) 1 1 (by decide) (by decide) (by decide)
      (by have := (daysIn_bounds 1 (y + 1) (by decide) (by decide)).1; omega)]
    show (1 : Int) ≠ 12
    decide
  · have e : daysBeforeYear y + daysBefore y (m + 1) = dateToDays y (m + 1) 1 := by
      rw [dateToDays_norm _ _ _ (by omega) (by omega)]
      ring
    rw [e, civil_dateToDays y (m + 1) 1 (by omega) (by omega) (by decide)
      (by have := (daysIn_bounds (m + 1) y (by omega) (by omega)).1; omega)]
    simp only
    omega

/-- The loop at line 403 of `countMonthDay`, started inside month `m`: it stops on the
first day of the following month. -/
theorem skip_to_next_month (fuel : Nat) (n : Int) (hf : 31 ≤ fuel) :
    loopWhile (fun r => decide (r.Month ∈ [(civil n).month])) (fun r => r.AddDate 0 0 1) fuel
        ⟨n, false⟩ =
      some ⟨n + (daysIn (civil n).month (civil n).year - (civil n).day) + 1, false⟩ := by
  obtain ⟨m1, m2, d1, d2, hday⟩ := civil_valid n
  have hb := daysIn_bounds (civil n).month (civil n).year m1 m2
  have key := loopWhile_seq (fun r => decide (r.Month ∈ [(civil n).month]))
    (fun r => r.AddDate 0 0 1)
    (daysIn (civil n).month (civil n).year - (civil n).day + 1).toNat
    (fun k => ⟨n + k, false⟩)
    (fun k => by
      show Time.AddDate ⟨n + k, false⟩ 0 0 1 = ⟨n + ((k + 1 : Nat) : Int), false⟩
      rw [AddDate_days]
      simp only [Nat.cast_add, Nat.cast_one, add_assoc])
    (by
      have e : n + ((daysIn (civil n).month (civil n).year - (civil n).day + 1).toNat : Nat) =
          n + (daysIn (civil n).month (civil n).year - (civil n).day) + 1 := by omega
      show decide (Time.Month ⟨n + ((daysIn (civil n).month (civil n).year - (civil n).day
        + 1).toNat : Nat), false⟩ ∈ [(civil n).month]) = false
      rw [e]
      simp only [decide_eq_false_iff_not, List.mem_singleton, Time.Month]
      exact civil_next_month n)
    (fun j hj => by
      show decide (Time.Month ⟨n + (j : Nat), false⟩ ∈ [(civil n).month]) = true
      simp only [decide_eq_true_eq, List.mem_singleton, Time.Month]
      rw [civil_add_in_month n j (by omega) (by omega)])
    fuel (by omega)
  simp only [Nat.cast_zero, add_zero] at key
  rw [key]
  congr 2
  omega

/-- The leap-year test written out in `countMonthDay` is the Gregorian rule. -/
theorem countMonthDay_february (y : Int) :
    (if y % 4 = 0 then (if y % 100 = 0 then (if y % 400 = 0 then (29 : Int) else 28) else 29)
      else 28) = daysIn 2 y := by
  rw [daysIn_february]
  by_cases h : isLeap y = true
  · rw [if_pos h]
    rw [isLeap_iff] at h
    split_ifs <;> first | rfl | omega
  · rw [if_neg h]
    rw [isLeap_iff] at h
    split_ifs <;> first | rfl | omega

/-- For a today up to the 27th, `countMonthDay` resolves `-1` to the length of today's
month. -/
theorem countMonthDay_last (fuel : Nat) (now ds : Time) (b : Bool)
    (hsel : (if b = true then now else ds) = now) (hU : now.isLocal = false)
    (hd : now.Day ≤ 27) (hf : 31 ≤ fuel) :
    countMonthDay fuel [] now ds (-1) b = some (daysIn now.Month now.Year) := by
  obtain ⟨nd, nl⟩ := now
  simp only at hU
  subst hU
  obtain ⟨m1, m2, d1, d2, hday⟩ := civil_valid nd
  by_cases hfeb : (civil nd).month = 2
  · have hdim := countMonthDay_february (civil nd).year
    have hD : daysIn 2 (civil nd).year = 28 ∨ daysIn 2 (civil nd).year = 29 := by
      rw [daysIn_february]
      split_ifs
      · exact Or.inr rfl
      · exact Or.inl rfl
    have hd' : (civil nd).day ≤ 27 := hd
    simp only [countMonthDay, hsel, Time.Month, Time.Year, hfeb, decide_True, Bool.true_and,
      decide_eq_true_eq, if_true]
    rw [hdim]
    generalize daysIn 2 (civil nd).year = D at hD ⊢
    rcases hD with h | h <;> subst h <;>
    simp only [countMonthDayEmpty, if_true, Time.Day, hd', true_and,
      show ¬ ((28 : Int) = 29) by decide, if_false]
  · have hd' : Time.Day ⟨nd, false⟩ < 29 := by
      have : (civil nd).day ≤ 27 := hd
      show (civil nd).day < 29
      omega
    have hfeb' : ¬ (Time.Month ⟨nd, false⟩ = 2) := hfeb
    have hskip : loopWhile (fun r => decide (r.Month ∈ [Time.Month ⟨nd, false⟩]))
        (fun r => r.AddDate 0 0 1) fuel ⟨nd, false⟩ =
        some ⟨nd + (daysIn (civil nd).month (civil nd).year - (civil nd).day) + 1, false⟩ :=
      skip_to_next_month fuel nd hf
    simp only [countMonthDay, hsel, hfeb', decide_False, Bool.false_and,
      Bool.false_eq_true, if_false, countMonthDayEmpty, hd', if_true,
      countMonthDayTail, hskip]
    rw [AddDate_days]
    have e : nd + (daysIn (civil nd).month (civil nd).year - (civil nd).day) + 1 + -1 =
        nd + (daysIn (civil nd).month (civil nd).year - (civil nd).day) := by ring
    simp only [e, Time.Day, Time.Month, Time.Year]
    rw [civil_add_in_month nd _ (by have : (civil nd).day ≤ 27 := hd; omega) (by omega)]
    simp only
    congr 1
    ring

/-- Claim C21.  For the rule `m -1`, a today with a four-digit year whose day of the month
is at most 27 and a parsed anchor not after today, `NextDate` returns — with fuel for
`today - anchor + 31` loop rounds — the last day of today's month in today's year; the
length of February follows the Gregorian rule. -/
theorem C21_last_day_of_month (Local : Zone) (now a : Time) (date : Str)
    (hnow : 0 ≤ now.Year ∧ now.Year ≤ 9999) (hdate : Parse date = some a)
    (hday : now.Day ≤ 27) (hanchor : a.day ≤ now.day) :
    (daysIn 2 now.Year =
      if now.Year % 4 = 0 ∧ (now.Year % 100 ≠ 0 ∨ now.Year % 400 = 0) then 29 else 28) ∧
    ∀ fuel : Nat, now.day - a.day + 31 ≤ fuel →
      NextDate Local fuel now date "m -1".toList =
        some (Res.ok (DateUTC now.Year now.Month (daysIn now.Month now.Year)).Format) := by
  constructor
  · rw [daysIn_february]
    by_cases h : isLeap now.Year = true
    · rw [if_pos h, if_pos ((isLeap_iff _).mp h)]
    · rw [if_neg h, if_neg (fun hc => h ((isLeap_iff _).mpr hc))]
  intro fuel hf
  obtain ⟨ad, al⟩ := a
  obtain ⟨hal, -, -⟩ := Parse_utc date _ hdate
  simp only at hal hanchor hf
  subst hal
  obtain ⟨m1, m2, d1, d2, hcd⟩ := civil_valid now.day
  have hb := daysIn_bounds (civil now.day).month (civil now.day).year m1 m2
  have hd27 : (civil now.day).day ≤ 27 := hday
  -- the day number of the last day of today's month
  have hR : dateToDays (civil now.day).year (civil now.day).month
      (daysIn (civil now.day).month (civil now.day).year) =
      now.day + (daysIn (civil now.day).month (civil now.day).year - (civil now.day).day) := by
    have := dateToDays_add_day (civil now.day).year (civil now.day).month (civil now.day).day
      (daysIn (civil now.day).month (civil now.day).year - (civil now.day).day)
    rw [hcd] at this
    rw [← this]
    congr 1
    ring
  generalize hL : daysIn (civil now.day).month (civil now.day).year = L at *
  have htext : "m -1".toList = 'm' :: ' ' :: Join ',' ["-1".toList] := by decide
  rw [htext, NextDate_monthly_eq Local fuel now ⟨ad, false⟩ date ["-1".toList] [-1] hnow hdate
    (List.Forall₂.cons (by decide) List.Forall₂.nil) (by decide) (by decide)]
  -- the wanted day
  have hsel : (if Time.Before Local ⟨ad, false⟩ ⟨now.day, false⟩ = true then
      (⟨now.day, false⟩ : Time) else ⟨ad, false⟩) = ⟨now.day, false⟩ := by
    rw [Before_utc]
    by_cases h : ad < now.day
    · simp only [h, decide_True, if_true]
    · have e : ad = now.day := by omega
      rw [e]
      split_ifs <;> rfl
  have hcount : countMonthDay fuel [] ⟨now.day, false⟩ ⟨ad, false⟩ (-1)
      (Time.Before Local ⟨ad, false⟩ ⟨now.day, false⟩) = some L := by
    have := countMonthDay_last fuel ⟨now.day, false⟩ ⟨ad, false⟩ _ hsel rfl hday (by omega)
    rw [this]
    exact congrArg some hL
  have hdays : monthDaySet Local fuel [] ⟨now.day, false⟩ ⟨ad, false⟩ [-1] = some (.ok [L]) := by
    simp only [monthDaySet, hcount, show ¬ ((31 : Int) < -1 ∨ (-1 : Int) < -2) by decide,
      show ¬ ((0 : Int) < -1) by decide, if_false]
  -- the wanted month
  have hcond1 : Time.Before Local ⟨ad, false⟩ ⟨now.day, false⟩ = true ∨
      (⟨ad, false⟩ : Time) = ⟨now.day, false⟩ := by
    rw [Before_utc]
    by_cases h : ad < now.day
    · left; simp only [h, decide_True]
    · right
      have e : ad = now.day := by omega
      rw [e]
  have hmonths : monthsFromNow Local ⟨now.day, false⟩ [L] = [(civil now.day).month] := by
    have hnb : Time.Before Local (DateLocal (Time.Year ⟨now.day, false⟩)
        (Time.Month ⟨now.day, false⟩) L) ⟨now.day, false⟩ = false := by
      have hzone := Local.bounded
        (now.day + (L - (civil now.day).day))
      simp only [DateLocal, Time.Year, Time.Month, Time.Before, Time.unix, hR, if_true,
        Bool.false_eq_true, if_false, sub_zero, decide_eq_false_iff_not, not_lt]
      omega
    simp only [monthsFromNow, List.foldl_cons, List.foldl_nil, hnb, Bool.false_eq_true,
      if_false, eq_self_iff_true, if_true]
    rfl
  -- the search
  have hsearch := stepUntil_seq
    (fun r => decide (r.Month ∈ [(civil now.day).month]) && decide (r.Day ∈ [L]) &&
      Time.Before Local ⟨now.day, false⟩ r)
    (fun r => r.AddDate 0 0 1) (now.day + (L - (civil now.day).day) - ad - 1).toNat
    (fun k => ⟨ad + k, false⟩)
    (fun k => by
      show Time.AddDate ⟨ad + k, false⟩ 0 0 1 = ⟨ad + ((k + 1 : Nat) : Int), false⟩
      rw [AddDate_days]
      simp only [Nat.cast_add, Nat.cast_one, add_assoc])
    (by
      have e : ad + (((now.day + (L - (civil now.day).day) - ad - 1).toNat + 1 : Nat) : Int) =
          now.day + (L - (civil now.day).day) := by omega
      show (decide (Time.Month ⟨ad + (((now.day + (L - (civil now.day).day) - ad - 1).toNat
          + 1 : Nat) : Int), false⟩ ∈ [(civil now.day).month]) &&
        decide (Time.Day ⟨ad + (((now.day + (L - (civil now.day).day) - ad - 1).toNat
          + 1 : Nat) : Int), false⟩ ∈ [L]) &&
        Time.Before Local ⟨now.day, false⟩ ⟨ad + (((now.day + (L - (civil now.day).day)
          - ad - 1).toNat + 1 : Nat) : Int), false⟩) = true
      rw [e, Before_utc]
      simp only [Time.Month, Time.Day, Bool.and_eq_true, decide_eq_true_eq, List.mem_singleton]
      rw [civil_add_in_month now.day _ (by omega) (by rw [hL]; omega)]
      simp only
      refine ⟨⟨trivial, by ring⟩, by omega⟩)
    (fun j hj1 hj2 => by
      show (decide (Time.Month ⟨ad + (j : Nat), false⟩ ∈ [(civil now.day).month]) &&
        decide (Time.Day ⟨ad + (j : Nat), false⟩ ∈ [L]) &&
        Time.Before Local ⟨now.day, false⟩ ⟨ad + (j : Nat), false⟩) = false
      rw [Before_utc, Bool.eq_false_iff]
      intro hc
      simp only [Time.Month, Time.Day, Bool.and_eq_true, decide_eq_true_eq,
        List.mem_singleton] at hc
      obtain ⟨⟨-, hcd2⟩, hcn⟩ := hc
      have e : ad + (j : Int) = now.day + (ad + j - now.day) := by ring
      rw [e, civil_add_in_month now.day _ (by omega) (by rw [hL]; omega)] at hcd2
      simp only at hcd2
      omega)
    fuel (by omega)
  simp only [Nat.cast_zero, add_zero] at hsearch
  have e : ad + (((now.day + (L - (civil now.day).day) - ad - 1).toNat + 1 : Nat) : Int) =
      now.day + (L - (civil now.day).day) := by omega
  rw [e] at hsearch
  have hnb2 : Time.Before Local ⟨now.day + (L - (civil now.day).day), false⟩
      ⟨now.day, false⟩ = false := by
    rw [Before_utc]
    simp only [decide_eq_false_iff_not]
    omega
  have hne : ¬ ([(civil now.day).month] = ([] : List Int)) := by simp
  have hres : DateUTC now.Year now.Month L =
      ⟨now.day + (L - (civil now.day).day), false⟩ := by
    show (⟨dateToDays (civil now.day).year (civil now.day).month L, false⟩ : Time) = _
    rw [hR]
  have hL' : daysIn now.Month now.Year = L := hL
  simp only [nextMonthly, monthSet, hdays, hcond1, and_self, if_true, hmonths, hne, false_and,
    if_false, hsearch, hnb2, Bool.false_eq_true, hL', hres]

theorem C21_witness :
    (daysIn 2 (Time.Year ⟨738959, false⟩) =
      if (Time.Year ⟨738959, false⟩) % 4 = 0 ∧ ((Time.Year ⟨738959, false⟩) % 100 ≠ 0 ∨
        (Time.Year ⟨738959, false⟩) % 400 = 0) then 29 else 28) ∧
    ∀ fuel : Nat, (738959 : Int) - 738915 + 31 ≤ fuel →
      NextDate Zone.utc fuel ⟨738959, false⟩ "20240131".toList "m -1".toList =
        some (Res.ok (DateUTC (Time.Year ⟨738959, false⟩) (Time.Month ⟨738959, false⟩)
          (daysIn (Time.Month ⟨738959, false⟩) (Time.Year ⟨738959, false⟩))).Format) :=
  C21_last_day_of_month Zone.utc ⟨738959, false⟩ ⟨738915, false⟩ "20240131".toList
    (by decide) (by decide) (by decide) (by decide)

/-! ## Completion of a task with a daily rule -/

theorem toDigitsCore_length_ge (fuel : Nat) :
    ∀ (n : Nat) (ds : List Char), ds.length ≤ (Nat.toDigitsCore 10 fuel n ds).length := by
  induction fuel with
  | zero => intro n ds; simp only [Nat.toDigitsCore]; exact le_refl _
  | succ f ih =>
    intro n ds
    simp only [Nat.toDigitsCore]
    split_ifs
    · simp only [List.length_cons]; omega
    · have := ih (n / 10) (Nat.digitChar (n % 10) :: ds)
      simp only [List.length_cons] at this
      omega

theorem toDigitsCore_length (k : Nat) :
    ∀ (fuel n : Nat) (ds : List Char), k + 1 ≤ fuel → 10 ^ k ≤ n →
      ds.length + k + 1 ≤ (Nat.toDigitsCore 10 fuel n ds).length := by
  induction k with
  | zero =>
    intro fuel n ds hf _
    cases fuel with
    | zero => omega
    | succ f =>
      simp only [Nat.toDigitsCore]
      split_ifs
      · simp only [List.length_cons]; omega
      · have := toDigitsCore_length_ge f (n / 10) (Nat.digitChar (n % 10) :: ds)
        simp only [List.length_cons] at this
        omega
  | succ k ih =>
    intro fuel n ds hf hn
    cases fuel with
    | zero => omega
    | succ f =>
      have h10 : 10 ^ k ≤ n / 10 := by
        rw [Nat.le_div_iff_mul_le (by decide)]
        rw [pow_succ] at hn
        exact hn
      have hpos : 0 < 10 ^ k := Nat.pos_pow_of_pos k (by decide)
      have hne : ¬ (n / 10 = 0) := by omega
      simp only [Nat.toDigitsCore, hne, if_false]
      have := ih f (n / 10) (Nat.digitChar (n % 10) :: ds) (by omega) h10
      simp only [List.length_cons] at this
      omega

/-- A year of five or more digits is written with more than four characters. -/
theorem pad4_length (n : Nat) : 4 ≤ (pad4 n).length ∧ (10000 ≤ n → 5 ≤ (pad4 n).length) := by
  by_cases h : n < 10000
  · simp only [pad4, h, if_true, List.length_cons, List.length_nil]
    omega
  · have := toDigitsCore_length 4 (n + 1) n [] (by omega) (by omega)
    simp only [List.length_nil] at this
    simp only [pad4, h, if_false, Nat.toDigits]
    omega

theorem dch_ne_minus (k : Nat) : dch k ≠ '-' := by
  have h : k % 10 < 10 := Nat.mod_lt _ (by decide)
  simp only [dch]
  generalize k % 10 = j at h
  interval_cases j <;> decide

/-- The text of a date equals the text of a date with a four-digit year only if the two
dates are the same day. -/
theorem Format_eq_day (x : Int) (now : Time) (h0 : 0 ≤ now.Year) (h1 : now.Year ≤ 9999)
    (h : Time.Format ⟨x, false⟩ = now.Format) : x = now.day := by
  have hp := Parse_Format now h0 h1
  by_cases hx0 : (civil x).year < 0
  · exfalso
    have hn : ¬ ((civil now.day).year < 0) := by
      have : 0 ≤ (civil now.day).year := h0
      omega
    have hy4 : (civil now.day).year.toNat < 10000 := by
      have : (civil now.day).year ≤ 9999 := h1
      omega
    simp only [Time.Format, hx0, hn, if_true, if_false, pad4, hy4, pad2, List.cons_append,
      List.nil_append] at h
    injection h with hc _
    exact dch_ne_minus _ hc.symm
  · by_cases hx1 : (civil x).year ≤ 9999
    · have hpx := Parse_Format ⟨x, false⟩ (by show 0 ≤ (civil x).year; omega) hx1
      rw [h, hp] at hpx
      injection hpx with hpx
      injection hpx with hpx
      exact hpx.symm
    · exfalso
      have hlen := congrArg List.length h
      have hn : ¬ ((civil now.day).year < 0) := by
        have : 0 ≤ (civil now.day).year := h0
        omega
      have hy4 : (civil now.day).year.toNat < 10000 := by
        have : (civil now.day).year ≤ 9999 := h1
        omega
      have hbig := (pad4_length (civil x).year.toNat).2 (by omega)
      simp only [Time.Format, hx0, hn, if_false, List.length_append, pad2, List.length_cons,
        List.length_nil] at hlen
      have hsmall : (pad4 (civil now.day).year.toNat).length = 4 := by
        simp only [pad4, hy4, if_true, List.length_cons, List.length_nil]
      omega

/-- The daily case in full: the returned date is `anchor + k * n`, it is not before today,
and `k = 0` happens only for an anchor that is not after today. -/
theorem daily_result (Local : Zone) (now a : Time) (date tok : Str) (n : Int)
    (hnow : 0 ≤ now.Year ∧ now.Year ≤ 9999) (hdate : Parse date = some a)
    (htok : Atoi tok = (n, none)) (hn : 1 ≤ n ∧ n ≤ 400) :
    ∃ k : Nat, now.day ≤ a.day + k * n ∧ (k = 0 → a.day ≤ now.day) ∧
      ∀ fuel : Nat, now.day + 1 - a.day ≤ fuel →
        NextDate Local fuel now date ('d' :: ' ' :: tok) =
          some (Res.ok (Time.Format ⟨a.day + k * n, false⟩)) := by
  obtain ⟨ad, al⟩ := a
  obtain ⟨hal, -, -⟩ := Parse_utc date _ hdate
  simp only at hal
  subst hal
  simp only
  have hb := Local.bounded now.day
  by_cases h1 : n = 1
  · by_cases h2 : ad = now.day
    · refine ⟨0, by omega, fun _ => by omega, ?_⟩
      intro fuel _
      rw [NextDate_daily_eq Local fuel now _ date tok n hnow hdate htok hn.2, nextDaily_eq,
        if_pos h1, if_pos h2]
      simp
    · obtain ⟨k, hk2, -, hk⟩ := daily_loop Local now.day (ad + 1) n hn.1
      refine ⟨k + 1, by subst h1; push_cast at hk2 ⊢; omega, fun h => by omega, ?_⟩
      intro fuel hf
      rw [NextDate_daily_eq Local fuel now _ date tok n hnow hdate htok hn.2, nextDaily_eq,
        if_pos h1, if_neg h2, hk fuel (by omega)]
      simp only [Option.map_some']
      congr 4
      subst h1
      push_cast
      ring
  · by_cases h2 : ad = now.day
    · refine ⟨1, by push_cast; omega, fun h => by omega, ?_⟩
      intro fuel _
      rw [NextDate_daily_eq Local fuel now _ date tok n hnow hdate htok hn.2, nextDaily_eq,
        if_neg h1, if_pos h2]
      simp
    · by_cases h3 : now.day < ad
      · obtain ⟨k, hk2, -, hk⟩ := daily_loop Local now.day (ad + n) n hn.1
        refine ⟨k + 1, ?_, fun h => by omega, ?_⟩
        · have e : ad + ((k + 1 : Nat) : Int) * n = ad + n + k * n := by push_cast; ring
          rw [e]
          generalize (k : Int) * n = z at *
          omega
        · intro fuel hf
          rw [NextDate_daily_eq Local fuel now _ date tok n hnow hdate htok hn.2, nextDaily_eq,
            if_neg h1, if_neg h2, if_pos h3, hk fuel (by omega)]
          simp only [Option.map_some']
          congr 4
          push_cast
          ring
      · obtain ⟨k, hk2, -, hk⟩ := daily_loop Local now.day ad n hn.1
        refine ⟨k, ?_, fun _ => by omega, ?_⟩
        · generalize (k : Int) * n = z at *
          omega
        · intro fuel hf
          rw [NextDate_daily_eq Local fuel now _ date tok n hnow hdate htok hn.2, nextDaily_eq,
            if_neg h1, if_neg h2, if_neg h3, hk fuel (by omega)]
          simp only [Option.map_some']

/-- Claim C22.  For a stored task with a parsed date and a daily rule `d n`,
`1 ≤ n ≤ 400`, and a today with a four-digit year, `Done` — with fuel for
`today + 1 - stored date` loop rounds — updates the task's date to the stored date plus
`k * n` days for some `k ≥ 1`, a date strictly after today. -/
theorem C22_done_daily_after_today (Local : Zone) (now a : Time) (task : Task) (tok : Str)
    (n : Int) (hnow : 0 ≤ now.Year ∧ now.Year ≤ 9999) (hdate : Parse task.Date = some a)
    (hrule : task.Repeat = 'd' :: ' ' :: tok) (htok : Atoi tok = (n, none))
    (hn : 1 ≤ n ∧ n ≤ 400) :
    ∃ k : Nat, 1 ≤ k ∧ now.day < a.day + k * n ∧
      ∀ fuel : Nat, now.day + 1 - a.day ≤ fuel →
        Done Local fuel now (.ok task) =
          some (DoneResult.updated { task with Date := Time.Format ⟨a.day + k * n, false⟩ }) := by
  obtain ⟨k, hk1, hk0, hk⟩ := daily_result Local now a task.Date tok n hnow hdate htok hn
  have hne : task.Repeat ≠ [] := by rw [hrule]; simp
  have hnone : (Atoi tok).2 = none := by rw [htok]
  have hsp : Split ' ' ('d' :: ' ' :: tok) = [['d'], tok] := by
    have h1 := Split_append ' ' ['d'] tok (by decide)
    rw [Split_noSep ' ' tok (Atoi_noSpace tok hnone)] at h1
    exact h1
  by_cases hx : a.day + k * n = now.day
  · refine ⟨k + 1, by omega, ?_, ?_⟩
    · have e : a.day + ((k + 1 : Nat) : Int) * n = a.day + k * n + n := by push_cast; ring
      rw [e, hx]
      omega
    · intro fuel hf
      have hfmt : Time.Format ⟨a.day + k * n, false⟩ = now.Format := by
        rw [hx]; rfl
      have hparse : Parse now.Format = some ⟨now.day, false⟩ := Parse_Format now hnow.1 hnow.2
      have e : a.day + ((k + 1 : Nat) : Int) * n = now.day + n := by
        rw [← hx]; push_cast; ring
      have hN := hk fuel hf
      simp only [Done, ne_eq, hne, not_false_eq_true, if_true]
      rw [hrule, hN]
      simp only [hfmt, if_true, hparse, hsp, List.drop_succ_cons, List.drop_zero, htok,
        AddDate_days, e]
  · have hk1' : 1 ≤ k := by
      by_contra hc
      have hz : k = 0 := by omega
      have := hk0 hz
      subst hz
      simp only [Nat.cast_zero, zero_mul, add_zero] at hx hk1
      omega
    refine ⟨k, hk1', by omega, ?_⟩
    intro fuel hf
    have hfmt : ¬ (Time.Format ⟨a.day + k * n, false⟩ = now.Format) := fun h =>
      hx (Format_eq_day _ now hnow.1 hnow.2 h)
    have hN := hk fuel hf
    simp only [Done, ne_eq, hne, not_false_eq_true, if_true]
    rw [hrule, hN]
    simp only [hfmt, if_false]

theorem C22_witness :
    ∃ k : Nat, 1 ≤ k ∧ (738959 : Int) < 738956 + k * 3 ∧
      ∀ fuel : Nat, (738959 : Int) + 1 - 738956 ≤ fuel →
        Done Zone.utc fuel ⟨738959, true⟩
            (.ok ⟨"7".toList, "t".toList, "20240312".toList, "d 3".toList, []⟩) =
          some (DoneResult.updated
            { (⟨"7".toList, "t".toList, "20240312".toList, "d 3".toList, []⟩ : Task) with
              Date := Time.Format ⟨738956 + k * 3, false⟩ }) :=
  C22_done_daily_after_today Zone.utc ⟨738959, true⟩ ⟨738956, false⟩
    ⟨"7".toList, "t".toList, "20240312".toList, "d 3".toList, []⟩ "3".toList 3
    (by decide) (by decide) (by decide) (by decide) (by decide)

/-! ## Order of the day list -/

set_option maxRecDepth 100000 in
/-- Claim C23.  Today 2024-03-28, anchor 2024-03-31, no month list: the rule `m 5,-1`
gives 2025-03-05 and the rule `m -1,5`, the same days in another order, gives 2024-04-05. -/
theorem C23_day_order_matters :
    NextDate Zone.utc 400 ⟨738972, false⟩ "20240331".toList "m 5,-1".toList =
        some (Res.ok "20250305".toList) ∧
      NextDate Zone.utc 400 ⟨738972, false⟩ "20240331".toList "m -1,5".toList =
        some (Res.ok "20240405".toList) ∧
      Time.Format ⟨738972, false⟩ = "20240328".toList := by
  decide

end GoSched
